import Mathlib

set_option maxRecDepth 8000

namespace DasConcat

/-!
Shallow embedding of the stream-assembly engine of the DAS-Data-Concat
repository (src/src/concat/main.py, class Concatenator).  Wall-clock times
and Python floats are modelled as exact rationals; float32 sample values
are modelled by a type parameter (or by rationals where arithmetic
matters); matrices are lists of rows, axis 0 being the space axis and
axis 1 the time axis, the [space, time] orientation of the code.
The configured constants SPS and CHUNK_SIZE (config.py) enter every
function as explicit parameters.
-/

/-- Half-to-even rounding to an integer: numpy.round(x) and Python
round(x), which round ties to the nearest even integer. -/
def roundHE (q : ℚ) : ℤ :=
  if q - ⌊q⌋ < 1/2 then ⌊q⌋
  else if 1/2 < q - ⌊q⌋ then ⌊q⌋ + 1
  else if ⌊q⌋ % 2 = 0 then ⌊q⌋ else ⌊q⌋ + 1

/-- numpy.round(x, 1): rounding to one decimal place, ties to even. -/
def roundTo1 (q : ℚ) : ℚ := (roundHE (10 * q) : ℚ) / 10

/-- Python int() applied to a float: truncation toward zero. -/
def pyInt (q : ℚ) : ℤ := if 0 ≤ q then ⌊q⌋ else -⌊-q⌋

/-- The next UTC midnight strictly after time t (seconds since the epoch):
datetime.fromtimestamp(t, UTC).replace(hour=0, minute=0, second=0,
microsecond=0) + timedelta(days=1), as a timestamp.  Unix time has no leap
seconds, so UTC days are exact multiples of 86400. -/
def nextMidnight (t : ℚ) : ℚ := 86400 * (⌊t / 86400⌋ + 1)

theorem roundHE_intCast (n : ℤ) : roundHE (n : ℚ) = n := by
  simp [roundHE]

theorem roundHE_zero : roundHE 0 = 0 := by
  simpa using roundHE_intCast 0

/-- A matrix is a list of rows: axis 0 = space, axis 1 = time. -/
abbrev Mat (α : Type) := List (List α)

/-- Number of columns, read off the first row (matrices are rectangular
wherever the code relies on shape). -/
def width (m : Mat α) : ℕ := (m.headD []).length

/-- data[:, s:e] for 0 ≤ s ≤ e (numpy basic slicing with clamping). -/
def sliceCols (s e : ℕ) (m : Mat α) : Mat α :=
  m.map fun r => (r.drop s).take (e - s)

/-- data[:, e:] (drop the first e columns). -/
def dropCols (e : ℕ) (m : Mat α) : Mat α := m.map (List.drop e)

/-- Every f-th element of a list, starting with the first: l[::f]. -/
def strideList (f : ℕ) : List α → List α
  | [] => []
  | a :: rest => a :: strideList f (rest.drop (f - 1))
termination_by l => l.length
decreasing_by simp; omega

/-- data[:, ::f]: every f-th column of every row. -/
def strideCols (f : ℕ) (m : Mat α) : Mat α := m.map (strideList f)

/-- Consecutive blocks of f elements of a row: the innermost axis of
np.reshape(shape0, -1, f) (numpy requires f to divide the length; a ragged
final block never arises under that hypothesis). -/
def blocksOf (f : ℕ) : List α → List (List α)
  | [] => []
  | a :: rest =>
    if _h : f = 0 then []
    else (a :: rest).take f :: blocksOf f ((a :: rest).drop f)
termination_by l => l.length
decreasing_by simp; omega

/-- Arithmetic mean of a list of rationals (np.mean along the last axis;
float32 arithmetic is idealized as exact). -/
def listMean (l : List ℚ) : ℚ := l.sum / l.length

/-- chunk[:, o : o + width sub] = sub: each row of sub replaces the columns
[o, o + row length) of the corresponding row of m (numpy requires the row
counts and the widths to agree). -/
def assignCols (o : ℕ) (sub : Mat α) (m : Mat α) : Mat α :=
  m.zipWith (fun r s => r.take o ++ s ++ r.drop (o + s.length)) sub

theorem blocksOf_length (f : ℕ) (hf : 0 < f) (l : List α) (hd : f ∣ l.length) :
    (blocksOf f l).length = l.length / f := by
  have H : ∀ n (l : List α), l.length ≤ n → f ∣ l.length →
      (blocksOf f l).length = l.length / f := by
    intro n
    induction n with
    | zero =>
      intro l hle _
      have : l = [] := List.eq_nil_of_length_eq_zero (by omega)
      subst this; simp [blocksOf]
    | succ n ih =>
      intro l hle hd
      rcases l with _ | ⟨a, rest⟩
      · simp [blocksOf]
      · rw [blocksOf, dif_neg (by omega : ¬ f = 0)]
        have hlen : ((a :: rest).drop f).length = (a :: rest).length - f := by
          simp
        have hle2 : f ≤ (a :: rest).length := by
          rcases hd with ⟨c, hc⟩
          rcases Nat.eq_zero_or_pos c with h0 | h0
          · subst h0; simp at hc
          · calc f = f * 1 := by ring
              _ ≤ f * c := Nat.mul_le_mul_left f h0
              _ = (a :: rest).length := hc.symm
        have hd2 : f ∣ ((a :: rest).drop f).length := by
          rw [hlen]; exact Nat.dvd_sub' hd ⟨1, by ring⟩
        have hle3 : ((a :: rest).drop f).length ≤ n := by
          rw [hlen]; simp at hle ⊢; omega
        rw [List.length_cons, ih _ hle3 hd2, hlen]
        obtain ⟨c, hc⟩ := hd
        rcases c with _ | c
        · simp at hc
        · rw [hc]
          have h5 : f * (c + 1) - f = f * c := by rw [Nat.mul_succ]; omega
          rw [h5, Nat.mul_div_cancel_left c (by omega : 0 < f),
            Nat.mul_div_cancel_left (c + 1) (by omega : 0 < f)]
  exact H l.length l le_rfl hd

/-!
The resampler (Concatenator._resample_data, src/src/concat/main.py lines
163-185).  The attribute state self.sps and self.dx enters as arguments;
SPSc and DXc are the configured canonical CONSTANTS.SPS and CONSTANTS.DX.
multithreaded_mean (concat/utils.py) np.array_splits the blocked array
along axis 1 and takes np.mean over the last axis in each part, which is
numerically the plain mean over the last axis; it is embedded as the exact
arithmetic mean of each block.
-/

/-- Embedding of Concatenator._resample_data.  Returns the resampled data
together with the updated (sps, dx) fields.  If sps / SPS is at least 2 the
rows are reshaped into blocks of int(sps / SPS) consecutive columns and
each block is reduced to its mean; if dx / DX is at least 2 the code then
takes data[:, ::int(dx / DX)], i.e. every factor-th COLUMN of each row. -/
def resampleData (SPSc DXc : ℚ) (sps dx : ℚ) (data : Mat ℚ) :
    Mat ℚ × ℚ × ℚ :=
  let td : Mat ℚ × ℚ :=
    if 2 ≤ sps / SPSc then
      (data.map (fun r => (blocksOf (pyInt (sps / SPSc)).toNat r).map listMean),
        SPSc)
    else (data, sps)
  let sd : Mat ℚ × ℚ :=
    if 2 ≤ dx / DXc then
      (strideCols (pyInt (dx / DXc)).toNat td.1, DXc)
    else (td.1, dx)
  (sd.1, td.2, sd.2)

/-- Modelled from the spec: the space-axis decimation described in section
4.3 of the spec, keeping every factor-th ROW (every factor-th channel along
the first axis).  Stated only for comparison with resampleData. -/
def specSpaceDecimate (f : ℕ) (m : Mat ℚ) : Mat ℚ := strideList f m

/-!
The checkpoint file SAVE/last during Concatenator._save_chunk_data
(src/src/concat/main.py lines 242-265).  After the chunk file is written,
the code removes SAVE/last if it exists (os.remove), reopens it with
mode "w" (which creates it empty) and then writes the two lines
chunk_time and chunk_data_offset.  There is no temporary file and no
rename anywhere in that function.
-/

/-- The externally observable content of SAVE/last: absent, created empty,
holding only the chunk_time line, or holding both lines. -/
inductive LastFile where
  | absent : LastFile
  | empty : LastFile
  | firstLine (ct : ℚ) : LastFile
  | both (ct : ℚ) (cur : ℕ) : LastFile
deriving DecidableEq

/-- Embedding of the checkpoint rewrite of _save_chunk_data (lines
257-262): the sequence of states of SAVE/last after each filesystem step,
starting from the state prev (os.remove when the file exists, open with
mode "w", write of the chunk_time line, write of the cursor line). -/
def saveLastStates (prev : LastFile) (ct : ℚ) (cur : ℕ) : List LastFile :=
  (if prev = .absent then [] else [.absent]) ++
    [.empty, .firstLine ct, .both ct cur]

/-!
Startup and resume (Concatenator._get_previous_file_data, lines 322-361,
Concatenator._restore_previous_chunk, lines 373-417, and
Concatenator._get_chunk_data / _allocate_empty_chunk, lines 363-428).
The on-disk chunk files are modelled as a map from the chunk origin time
to the stored matrix; z is the zero sample value used for padding (and
stands in for the uninitialised np.empty content of a fresh chunk).
-/

inductive StartupError where
  | restoreMissing : StartupError
deriving DecidableEq

/-- The engine state produced by startup and carried through the main
loop: the chunk buffer, the cursor (chunk_data_offset), chunk_time, the
pending carry, the new_chunk flag, chunk_to_next_day and the
previous-chunk bookkeeping. -/
structure EngState (α : Type) where
  chunkData : Mat α
  offset : ℕ
  chunkTime : ℚ
  carry : Option (Mat α)
  newChunk : Bool
  chunkToNextDay : ℚ
  prevTime : ℚ
  prevOffset : ℕ
deriving DecidableEq

/-- Embedding of Concatenator._get_previous_file_data (lines 322-361):
read (chunk_time, chunk_data_offset) from SAVE/last if present; when the
recorded chunk is complete (cursor full or its end at or past the next UTC
midnight) load the carry file if present and skip restoration, otherwise
mark restore mode (the carry file is not read in that case). -/
def getPreviousFileData (SPSc CHUNKc : ℕ) (last : Option (ℚ × ℕ))
    (carryFile : Option (Mat α)) : (ℚ × ℕ) × Option (Mat α) × Bool :=
  match last with
  | none => ((0, 0), none, false)
  | some (ct, cur) =>
    if cur = CHUNKc * SPSc ∨ nextMidnight ct ≤ ct + (cur : ℚ) / (SPSc : ℚ)
    then ((ct, cur), carryFile, false)
    else ((ct, cur), none, true)

/-- np.empty((space_samples, CHUNK_SIZE * SPS)) of _allocate_empty_chunk;
the uninitialised content is the placeholder z. -/
def allocateEmpty (S full : ℕ) (z : α) : Mat α :=
  List.replicate S (List.replicate full z)

/-- Embedding of Concatenator._restore_previous_chunk (lines 373-417):
reopen the on-disk chunk file keyed by the checkpoint time, hstack zero
columns up to the full width SPS * CHUNK_SIZE, and resume at the recorded
cursor; a missing file raises (FileNotFoundError, the RestoreMissing
failure of the spec). -/
def restorePreviousChunk (full : ℕ) (z : α) (store : ℚ → Option (Mat α))
    (ct : ℚ) (cur : ℕ) : Except StartupError (Mat α × ℚ × ℕ) :=
  match store ct with
  | none => .error .restoreMissing
  | some m =>
    .ok (m.map (fun r => r ++ List.replicate (full - width m) z), ct, cur)

/-- Embedding of the startup path of _concat_files (line 696) together
with the first _get_chunk_data call (lines 419-428): read the checkpoint,
then either restore the previous on-disk chunk at (ct, cur) or allocate a
fresh empty chunk.  In restore mode chunk_to_next_day is set from the next
UTC midnight after the restored chunk time (lines 400-406). -/
def startup (SPSc CHUNKc S : ℕ) (z : α) (last : Option (ℚ × ℕ))
    (carryFile : Option (Mat α)) (store : ℚ → Option (Mat α)) :
    Except StartupError (EngState α) :=
  match getPreviousFileData SPSc CHUNKc last carryFile with
  | ((ct, cur), carry, restored) =>
    if restored then
      match restorePreviousChunk (SPSc * CHUNKc) z store ct cur with
      | .error e => .error e
      | .ok (cd, ct2, off) =>
        .ok ⟨cd, off, ct2, carry, false, nextMidnight ct - ct, ct, cur⟩
    else
      .ok ⟨allocateEmpty S (SPSc * CHUNKc) z, 0, 0, carry, true, 0, ct, cur⟩

/-!
The main fill loop (Concatenator._fill_chunk_data, lines 498-688, calling
_get_next_packet_data, lines 108-161) and the outer chunk loop
(_concat_files, lines 690-744).  A packet carries the file timestamp
(with the attrs time offset already added, as _get_file_timestamp
returns it), the duration self.time_seconds computed by _calculate_attrs,
and the canonical [space, time] matrix after _read_data.  For canonical
packets self.sps equals the configured SPS, which is the single SPSc
parameter here.  The Python list is consumed from its end (it is reversed
at line 481); here the next packet is the head of the list.
-/

structure Pkt (α : Type) where
  ts : ℚ
  dur : ℚ
  data : Mat α
deriving DecidableEq

inductive FillExit where
  | shapeMismatch : FillExit
  | chunkStop : FillExit
deriving DecidableEq

inductive EngErr where
  | restoreMissing : EngErr
  | inconsistency : EngErr
  | fuel : EngErr
  | emptyList : EngErr
deriving DecidableEq

/-- Embedding of Concatenator._get_next_packet_data (lines 108-161).  With
at least two packets left: if np.round of the next-minus-current timestamp
difference exceeds the current packet's duration, a gap is reported (stop
flag set, data untruncated); otherwise the data is cut to its first
SPS * int(np.round(difference)) columns and the loop continues.  With a
single packet left the data is returned whole with the stop flag set. -/
def getNextPacketData (SPSc : ℕ) (p : Pkt α) (rest : List (Pkt α)) :
    Pkt α × Bool :=
  match rest with
  | [] => (p, true)
  | q :: _ =>
    if p.dur < (roundHE (q.ts - p.ts) : ℚ) then (p, true)
    else
      let splitBefore : ℕ :=
        ((SPSc : ℤ) * pyInt (roundHE (q.ts - p.ts) : ℚ)).toNat
      ({ p with data := sliceCols 0 splitBefore p.data }, false)

/-- Embedding of the new-chunk block of _fill_chunk_data (lines 530-574):
chunk_time from the carry bookkeeping (previous_chunk_time +
previous_offset / SPS, carry written at column 0, cursor moved past it) or
from the packet timestamp; then the drift correction replacing the
sub-second fraction of chunk_time by the packet's; then chunk_to_next_day
from a midnight obtained by datetime.replace(hour=0, minute=0, second=0) +
timedelta(days=1), which KEEPS the microsecond part of chunk_time, rounded
with np.round. -/
def openNewChunk (SPSc : ℕ) (ts : ℚ) (st : EngState α) : EngState α :=
  let s1 : EngState α :=
    match st.carry with
    | some c =>
      { st with
          chunkTime := st.prevTime + (st.prevOffset : ℚ) / (SPSc : ℚ),
          chunkData := assignCols 0 c st.chunkData,
          offset := width c,
          carry := none }
    | none => { st with chunkTime := ts }
  let ct : ℚ := (⌊s1.chunkTime⌋ : ℚ) + (ts - ⌊ts⌋)
  { s1 with
      chunkTime := ct,
      newChunk := false,
      chunkToNextDay := (roundHE (nextMidnight ct + (ct - ⌊ct⌋) - ct) : ℚ) }

/-- The consistency test guarding every append (lines 644-667):
np.round(chunk_time + cursor / sps - (packet_time + start_split / sps), 1)
compared against 0.5.  The drift is signed: no absolute value appears in
the code. -/
def timeInconsistency (SPSc : ℕ) (ct : ℚ) (off : ℕ) (ts : ℚ) (start : ℤ) :
    Bool :=
  1/2 <
    roundTo1 (ct + (off : ℚ) / (SPSc : ℚ) - (ts + (start : ℚ) / (SPSc : ℚ)))

/-- Embedding of the while-loop of Concatenator._fill_chunk_data (lines
506-688).  fuel bounds the number of iterations (the skip branch at lines
522-528 re-enters the loop without popping the file, so the Python loop
need not terminate).  Exits: a row-count mismatch between packet and chunk
breaks without popping (lines 512-519); the stop flag (gap, single file
left, day split or chunk split) breaks after the append; the failed
consistency test raises.  Negative split indices never occur along the
paths exercised by the theorems below, so the Int.toNat conversions agree
with Python slicing there. -/
def fillLoop (SPSc CHUNKc : ℕ) :
    ℕ → EngState α → List (Pkt α) →
      Except EngErr (EngState α × List (Pkt α) × FillExit)
  | 0, _, _ => .error .fuel
  | _ + 1, _, [] => .error .emptyList
  | fuel + 1, st0, p0 :: rest =>
    let tillNextChunk : ℚ := (CHUNKc : ℚ) - (st0.offset : ℚ) / (SPSc : ℚ)
    let pr := getNextPacketData SPSc p0 rest
    let p := pr.1
    let stop0 := pr.2
    if p.data.length ≠ st0.chunkData.length then
      .ok (st0, p0 :: rest, .shapeMismatch)
    else if p.ts ≤
        (pyInt (st0.chunkTime + (st0.offset : ℚ) / (SPSc : ℚ) - p.dur) : ℚ) then
      fillLoop SPSc CHUNKc fuel st0 (p0 :: rest)
    else
      let st := if st0.newChunk then openNewChunk SPSc p.ts st0 else st0
      let w : ℕ := width p.data
      let tillNextDay : ℚ :=
        (roundHE (st.chunkToNextDay - (st.offset : ℚ) / (SPSc : ℚ)) : ℚ)
      let start : ℤ :=
        if 1 ≤ roundHE (st.chunkTime + (st.offset : ℚ) / (SPSc : ℚ) - p.ts) then
          pyInt ((SPSc : ℚ) *
            (roundHE (st.chunkTime + (st.offset : ℚ) / (SPSc : ℚ) - p.ts) : ℚ))
        else 0
      let endSplit : ℤ :=
        if tillNextDay < (w : ℚ) / (SPSc : ℚ) then
          pyInt ((SPSc : ℚ) * tillNextDay)
        else if tillNextChunk < (w : ℚ) / (SPSc : ℚ) then
          pyInt ((SPSc : ℚ) * tillNextChunk)
        else (w : ℤ)
      let carry2 : Option (Mat α) :=
        if tillNextDay < (w : ℚ) / (SPSc : ℚ) ∨
            tillNextChunk < (w : ℚ) / (SPSc : ℚ) then
          some (dropCols endSplit.toNat p.data)
        else st.carry
      let isStop : Bool := stop0 ||
        decide (tillNextDay < (w : ℚ) / (SPSc : ℚ)) ||
        decide (tillNextChunk < (w : ℚ) / (SPSc : ℚ))
      if timeInconsistency SPSc st.chunkTime st.offset p.ts start then
        .error .inconsistency
      else
        let st2 : EngState α :=
          { st with
              carry := carry2,
              chunkData :=
                assignCols st.offset (sliceCols start.toNat endSplit.toNat p.data)
                  st.chunkData,
              offset := ((st.offset : ℤ) + (endSplit - start)).toNat }
        if isStop then .ok (st2, rest, .chunkStop)
        else fillLoop SPSc CHUNKc fuel st2 rest

/-- The externally visible outputs of a run: chunk files handed to the
sink, checkpoint rewrites of SAVE/last, and carry sidecar writes. -/
inductive Event (α : Type) where
  | sink (ct : ℚ) (data : Mat α) : Event α
  | checkpoint (ct : ℚ) (cur : ℕ) : Event α
  | carrySave (c : Mat α) : Event α
deriving DecidableEq

/-- Embedding of _cut_chunk_to_size (lines 318-320) composed with
_save_chunk_data (lines 242-265) at the level of emitted outputs: the
chunk truncated to the cursor handed to the sink, the rewritten
checkpoint, and the carry sidecar when a carry is pending. -/
def saveChunkEvents (st : EngState α) : List (Event α) :=
  [.sink st.chunkTime (sliceCols 0 st.offset st.chunkData),
    .checkpoint st.chunkTime st.offset] ++
    (match st.carry with
     | some c => [.carrySave c]
     | none => [])

/-- State after a chunk is saved in the _concat_files loop (lines
739-740 plus the next _get_chunk_data): previous_chunk_time and
previous_chunk_data_offset take the saved chunk's values, a fresh chunk is
allocated (restored is False after startup), and self.carry survives. -/
def afterSave (SPSc CHUNKc S : ℕ) (z : α) (st : EngState α) : EngState α :=
  { chunkData := allocateEmpty S (SPSc * CHUNKc) z,
    offset := 0,
    chunkTime := st.chunkTime,
    carry := st.carry,
    newChunk := true,
    chunkToNextDay := st.chunkToNextDay,
    prevTime := st.chunkTime,
    prevOffset := st.offset }

/-- The while-loop of _concat_files (lines 720-744): fill a chunk, cut and
save it, update the previous-chunk bookkeeping, repeat while files
remain. -/
def concatLoop (SPSc CHUNKc S : ℕ) (z : α) :
    ℕ → EngState α → List (Pkt α) → List (Event α) →
      Except EngErr (List (Event α))
  | 0, _, _, _ => .error .fuel
  | _ + 1, _, [], evs => .ok evs
  | fuel + 1, st, ps, evs =>
    match fillLoop SPSc CHUNKc (fuel + 1) st ps with
    | .error e => .error e
    | .ok (st2, rest, _) =>
      concatLoop SPSc CHUNKc S z fuel (afterSave SPSc CHUNKc S z st2) rest
        (evs ++ saveChunkEvents st2)

/-- Embedding of _concat_files (lines 690-744): startup, the early return
when no files are found (lines 701-703), the gap check between the
persisted carry and the first file (lines 707-718, dropping the carry when
np.floor of the lead of the first file over the carried coverage is
positive), then the chunk loop. -/
def concatFiles (SPSc CHUNKc S : ℕ) (z : α) (fuel : ℕ)
    (last : Option (ℚ × ℕ)) (carryFile : Option (Mat α))
    (store : ℚ → Option (Mat α)) (ps : List (Pkt α)) :
    Except EngErr (List (Event α)) :=
  match startup SPSc CHUNKc S z last carryFile store with
  | .error _ => .error .restoreMissing
  | .ok st =>
    match ps with
    | [] => .ok []
    | p0 :: _ =>
      let st1 : EngState α :=
        match st.carry with
        | some c =>
          if 0 < ⌊p0.ts - (st.prevTime + (st.prevOffset : ℚ) / (SPSc : ℚ) +
              (width c : ℚ) / (SPSc : ℚ))⌋ then
            { st with carry := none }
          else st
        | none => st
      concatLoop SPSc CHUNKc S z fuel st1 ps []

/-! Shared helper lemmas. -/

theorem pyInt_intCast (n : ℤ) : pyInt (n : ℚ) = n := by
  unfold pyInt
  split_ifs
  · exact Int.floor_intCast n
  · rw [← Int.cast_neg, Int.floor_intCast]; ring

/-- Python int(t - d) is strictly below t whenever d is at least one
(both branches of the truncation toward zero). -/
theorem pyInt_sub_lt (t d : ℚ) (hd : 1 ≤ d) : (pyInt (t - d) : ℚ) < t := by
  unfold pyInt
  split_ifs with h
  · calc ((⌊t - d⌋ : ℚ)) ≤ t - d := Int.floor_le _
      _ < t := by linarith
  · push_cast
    have h2 : (d - t : ℚ) - 1 < (⌊d - t⌋ : ℚ) := Int.sub_one_lt_floor _
    have h3 : -(t - d) = d - t := by ring
    rw [h3]
    linarith

theorem sliceCols_zero_full (k : ℕ) (m : Mat α)
    (h : ∀ r ∈ m, r.length ≤ k) : sliceCols 0 k m = m := by
  unfold sliceCols
  conv_rhs => rw [← List.map_id m]
  refine List.map_congr_left ?_
  intro r hr
  simp [List.take_of_length_le (by simpa using h r hr)]

theorem sliceCols_zero_eq_map_take (k : ℕ) (m : Mat α) :
    sliceCols 0 k m = m.map (List.take k) := by
  simp [sliceCols]

/-! Claim C3: the checkpoint rewrite is not atomic. -/

/-- C3 counterexample: starting from an existing SAVE/last, the rewrite
performed by _save_chunk_data passes through intermediate states in which
SAVE/last does not exist and in which it is empty, contradicting the
claimed write-temp-plus-rename atomicity. -/
theorem c3_checkpoint_not_atomic :
    LastFile.absent ∈ saveLastStates (.both 1699999940 6000) 1700000000 6000 ∧
    LastFile.empty ∈ saveLastStates (.both 1699999940 6000) 1700000000 6000 := by
  constructor <;> simp [saveLastStates]

/-- C3 (amended): the checkpoint write removes any existing SAVE/last and
rewrites it in place (no temporary file and no rename); the final state
does hold exactly the two lines chunk_time and cursor, but intermediate
states in which SAVE/last is absent or empty occur. -/
theorem c3_checkpoint_rewritten_in_place (prev : LastFile) (ct : ℚ) (cur : ℕ)
    (h : prev ≠ .absent) :
    (saveLastStates prev ct cur).getLast? = some (.both ct cur) ∧
    LastFile.absent ∈ saveLastStates prev ct cur ∧
    LastFile.empty ∈ saveLastStates prev ct cur := by
  simp [saveLastStates, h]

/-- C3 witness: the amended statement at a concrete prior checkpoint. -/
theorem c3_checkpoint_rewritten_in_place_witness :
    (saveLastStates (.both 1699999940 6000) 1700000010 6000).getLast? =
      some (.both 1700000010 6000) ∧
    LastFile.absent ∈ saveLastStates (.both 1699999940 6000) 1700000010 6000 ∧
    LastFile.empty ∈ saveLastStates (.both 1699999940 6000) 1700000010 6000 :=
  c3_checkpoint_rewritten_in_place (.both 1699999940 6000) 1700000010 6000
    (by simp)

/-! Claim C5: the space-axis decimation acts on the wrong axis. -/

/-- C5: at a packet with channel_pitch_in 8 and canonical DX 4 (factor 2,
no time resampling), _resample_data returns data[:, ::2] - every second
COLUMN (time sample) of the [space, time] matrix - whereas the spec (and
the code's own log message, line 180: Resampling space axis) prescribes
every second ROW: on [[1, 2], [3, 4]] the code yields [[1], [3]] while
keeping every second row would yield [[1, 2]]. -/
theorem c5_space_decimation_wrong_axis :
    resampleData 100 4 100 8 [[1, 2], [3, 4]] = ([[1], [3]], 100, 4) ∧
    specSpaceDecimate 2 [[1, 2], [3, 4]] = [[1, 2]] ∧
    ([[1], [3]] : Mat ℚ) ≠ [[1, 2]] := by
  refine ⟨?_, ?_, ?_⟩
  · have h1 : ¬ ((2 : ℚ) ≤ 100 / 100) := by norm_num
    have h2 : (2 : ℚ) ≤ 8 / 4 := by norm_num
    have h3 : pyInt ((8 : ℚ) / 4) = 2 := by norm_num [pyInt]
    simp only [resampleData, h1, h2, h3, if_true, if_false, ite_true, ite_false]
    simp [strideCols, strideList]
  · simp [specSpaceDecimate, strideList]
  · simp

/-! Claim C7: the drift check is one-sided and rounded. -/

/-- C7 counterexample: a drift of -1 s (the packet one second ahead of the
cursor) has absolute value above 0.5 s, yet timeInconsistency does not
fire, because the code compares the SIGNED rounded drift with 0.5 and
never takes an absolute value. -/
theorem c7_negative_drift_not_flagged :
    timeInconsistency 100 1700000001 0 1700000002 0 = false ∧
    |(1700000001 : ℚ) + (0 : ℕ) / (100 : ℚ) -
      ((1700000002 : ℚ) + ((0 : ℤ) : ℚ) / (100 : ℚ))| > 1/2 := by
  constructor
  · norm_num [timeInconsistency, roundTo1, roundHE]
  · norm_num

theorem roundTo1_gt_half_iff (d : ℚ) : 1/2 < roundTo1 d ↔ 11/20 ≤ d := by
  have hfl : (d * 10 - ⌊d * 10⌋ : ℚ) < 1 := by
    have := Int.lt_floor_add_one (d * 10)
    linarith
  have hfg : (0 : ℚ) ≤ d * 10 - ⌊d * 10⌋ := by
    have := Int.floor_le (d * 10)
    linarith
  have key : (5 : ℤ) < roundHE (10 * d) ↔ 11/20 ≤ d := by
    unfold roundHE
    rw [mul_comm (10 : ℚ) d]
    split_ifs with h1 h2 h3
    · constructor
      · intro h
        have h6 : (6 : ℤ) ≤ ⌊d * 10⌋ := by omega
        have : (6 : ℚ) ≤ (⌊d * 10⌋ : ℚ) := by exact_mod_cast h6
        nlinarith
      · intro h
        have : (5 : ℚ) < (⌊d * 10⌋ : ℚ) := by nlinarith
        have h5 : (5 : ℤ) < ⌊d * 10⌋ := by exact_mod_cast this
        omega
    · constructor
      · intro h
        have h5 : (5 : ℤ) ≤ ⌊d * 10⌋ := by omega
        have : (5 : ℚ) ≤ (⌊d * 10⌋ : ℚ) := by exact_mod_cast h5
        nlinarith
      · intro h
        have h5 : (5 : ℤ) ≤ ⌊d * 10⌋ := by
          have : (5 : ℚ) ≤ d * 10 := by linarith
          exact_mod_cast Int.le_floor.2 (by exact_mod_cast this)
        omega
    · have hr : (d * 10 - ⌊d * 10⌋ : ℚ) = 1/2 := by linarith
      constructor
      · intro h
        have h6 : (6 : ℤ) ≤ ⌊d * 10⌋ := by omega
        have : (6 : ℚ) ≤ (⌊d * 10⌋ : ℚ) := by exact_mod_cast h6
        nlinarith
      · intro h
        have : (5 : ℚ) ≤ (⌊d * 10⌋ : ℚ) := by nlinarith
        have h5 : (5 : ℤ) ≤ ⌊d * 10⌋ := by exact_mod_cast this
        omega
    · have hr : (d * 10 - ⌊d * 10⌋ : ℚ) = 1/2 := by linarith
      constructor
      · intro h
        have h5 : (5 : ℤ) ≤ ⌊d * 10⌋ := by omega
        have : (5 : ℚ) ≤ (⌊d * 10⌋ : ℚ) := by exact_mod_cast h5
        nlinarith
      · intro h
        have : (5 : ℚ) ≤ (⌊d * 10⌋ : ℚ) := by nlinarith
        have h5 : (5 : ℤ) ≤ ⌊d * 10⌋ := by exact_mod_cast this
        omega
  unfold roundTo1
  constructor
  · intro h
    refine key.1 ?_
    by_contra hc
    push_neg at hc
    have h5 : (roundHE (10 * d) : ℚ) ≤ 5 := by exact_mod_cast hc
    linarith
  · intro h
    have h5 : (5 : ℤ) < roundHE (10 * d) := key.2 h
    have h6 : (6 : ℚ) ≤ (roundHE (10 * d) : ℚ) := by
      have : (6 : ℤ) ≤ roundHE (10 * d) := by omega
      exact_mod_cast this
    linarith

/-- C7 (amended): the consistency guard raises if and only if np.round of
the SIGNED drift chunk_time + cursor/sps - (packet_time + start_split/sps)
to one decimal exceeds 0.5, which for exact rationals means the signed
drift is at least 0.55 s; the absolute value is never taken, so an
arbitrarily large negative drift is appended without complaint, and
positive drifts below 0.55 s pass the guard. -/
theorem c7_drift_check_signed_threshold (SPSc : ℕ) (ct : ℚ) (off : ℕ)
    (ts : ℚ) (start : ℤ) :
    timeInconsistency SPSc ct off ts start = true ↔
      11/20 ≤ ct + (off : ℚ) / (SPSc : ℚ) -
        (ts + (start : ℚ) / (SPSc : ℚ)) := by
  unfold timeInconsistency
  rw [decide_eq_true_iff]
  exact roundTo1_gt_half_iff _

/-! Claim C10: truncation of the current packet to the next packet's
start. -/

/-- C10: whenever at least two packets remain and no gap is detected
(np.round(next.ts - current.ts) not exceeding the current packet's
duration), _get_next_packet_data cuts the current matrix to its first
SPS * round(next.ts - current.ts) columns (clamped at the matrix width)
and reports no stop, so the truncated packet proceeds to classification
and append; every column index below the cut is kept unchanged and every
column at or beyond it is dropped. -/
theorem c10_truncated_to_next_packet (SPSc : ℕ) (p q : Pkt α)
    (rest : List (Pkt α))
    (hgap : (roundHE (q.ts - p.ts) : ℚ) ≤ p.dur)
    (hnn : 0 ≤ roundHE (q.ts - p.ts)) :
    ∃ k : ℕ, (k : ℤ) = (SPSc : ℤ) * roundHE (q.ts - p.ts) ∧
      getNextPacketData SPSc p (q :: rest) =
        ({ p with data := p.data.map (List.take k) }, false) ∧
      ∀ r ∈ p.data,
        (List.take k r).length = min k r.length ∧
        (∀ j, j < k → (List.take k r).get? j = r.get? j) ∧
        (∀ j, k ≤ j → (List.take k r).get? j = none) := by
  refine ⟨((SPSc : ℤ) * roundHE (q.ts - p.ts)).toNat, ?_, ?_, ?_⟩
  · have : (0 : ℤ) ≤ (SPSc : ℤ) * roundHE (q.ts - p.ts) :=
      mul_nonneg (by positivity) hnn
    omega
  · simp only [getNextPacketData]
    rw [if_neg (not_lt.2 hgap), pyInt_intCast, sliceCols_zero_eq_map_take]
  · intro r _
    refine ⟨List.length_take _ _, fun j hj => List.get?_take hj, fun j hj => ?_⟩
    apply List.get?_eq_none.2
    calc (List.take _ r).length ≤ _ := List.length_take_le _ _
      _ ≤ j := hj

/-- C10 witness: two abutting 2-second packets at SPS 100; the first is
cut to its first 200 columns. -/
theorem c10_truncated_to_next_packet_witness :
    ∃ k : ℕ, (k : ℤ) = (100 : ℤ) * roundHE ((1700000002 : ℚ) - 1700000000) ∧
      getNextPacketData 100 ⟨1700000000, 2, [List.replicate 300 (5 : ℚ)]⟩
          [⟨1700000002, 2, [List.replicate 300 (5 : ℚ)]⟩] =
        (⟨1700000000, 2, [List.replicate 300 (5 : ℚ)].map (List.take k)⟩,
          false) ∧
      ∀ r ∈ [List.replicate 300 (5 : ℚ)],
        (List.take k r).length = min k r.length ∧
        (∀ j, j < k → (List.take k r).get? j = r.get? j) ∧
        (∀ j, k ≤ j → (List.take k r).get? j = none) :=
  c10_truncated_to_next_packet 100
    ⟨1700000000, 2, [List.replicate 300 (5 : ℚ)]⟩
    ⟨1700000002, 2, [List.replicate 300 (5 : ℚ)]⟩ []
    (by norm_num [roundHE]) (by norm_num [roundHE])

/-! Claim C6: the concrete resampling scenario. -/

theorem blocksOf_two_cons (a b : α) (t : List α) :
    blocksOf 2 (a :: b :: t) = [a, b] :: blocksOf 2 t := by
  rw [blocksOf]
  norm_num

theorem listMean_pair (a b : ℚ) : listMean [a, b] = (a + b) / 2 := by
  simp [listMean]

theorem width_replicate (n : ℕ) (hn : n ≠ 0) (r : List α) :
    width (List.replicate n r) = r.length := by
  cases n with
  | zero => omega
  | succ m => simp [width, List.replicate_succ]

/-- Means of consecutive pairs of an arithmetic ramp: the time-axis
reduction of _resample_data with factor 2 sends the ramp s, s+1, ...,
s+2n-1 to the n pair-means s + 1/2, s + 2 + 1/2, and so on. -/
theorem blocksOf_two_mean_ramp : ∀ (n s : ℕ),
    ((blocksOf 2 ((List.range' s (2 * n)).map (fun j : ℕ => (j : ℚ)))).map
        listMean)
      = (List.range n).map (fun k : ℕ => (s : ℚ) + 2 * k + 1/2)
  | 0, s => by simp [blocksOf]
  | n + 1, s => by
    have h2 : 2 * (n + 1) = (2 * n) + 1 + 1 := by ring
    rw [h2, List.range'_succ, List.range'_succ, List.map_cons, List.map_cons,
      blocksOf_two_cons, List.map_cons, listMean_pair,
      blocksOf_two_mean_ramp n (s + 1 + 1), List.range_succ_eq_map,
      List.map_cons, List.map_map]
    congr 1
    · push_cast; ring
    · refine List.map_congr_left fun k _ => ?_
      simp only [Function.comp]
      push_cast; ring

/-- C6 counterexample: a packet of shape (3334, 400) with sample_rate_in
200 and channel_pitch_in 2 under canonical SPS 100 and DX 4 resamples to
shape (3334, 200), not (1667, 200): the time axis is halved by the
windowed mean, but the space branch does not fire because
channel_pitch_in / DX = 1/2 is below 2. -/
theorem c6_resample_shape_counterexample :
    ((resampleData 100 4 200 2
        (List.replicate 3334 (List.replicate 400 (0 : ℚ)))).1.length,
      width (resampleData 100 4 200 2
        (List.replicate 3334 (List.replicate 400 (0 : ℚ)))).1) =
      (3334, 200) ∧
    ((3334 : ℕ), (200 : ℕ)) ≠ (1667, 200) := by
  have h1 : (2 : ℚ) ≤ 200 / 100 := by norm_num
  have h2 : ¬ ((2 : ℚ) ≤ 2 / 4) := by norm_num
  have h3 : pyInt ((200 : ℚ) / 100) = 2 := by norm_num [pyInt]
  have htn : Int.toNat 2 = 2 := rfl
  have hlen : ((blocksOf 2 (List.replicate 400 (0 : ℚ))).map listMean).length
      = 200 := by
    rw [List.length_map, blocksOf_length 2 (by norm_num) _
      (by simp; omega)]
    simp
  have e1 : (resampleData 100 4 200 2
      (List.replicate 3334 (List.replicate 400 (0 : ℚ)))).1 =
      List.replicate 3334
        ((blocksOf 2 (List.replicate 400 (0 : ℚ))).map listMean) := by
    simp only [resampleData, h1, h2, h3, htn, if_true, if_false, ite_true,
      ite_false, List.map_replicate]
  constructor
  · rw [e1, width_replicate 3334 (by norm_num), hlen, List.length_replicate]
  · simp

/-- C6 (amended): the scenario packet resamples to shape (3334, 200): the
time axis is reduced from 400 to 200 columns by the factor-2 windowed
arithmetic mean (shown on an arithmetic ramp, each output column being the
mean of its two input columns), the sps field becomes the canonical 100,
and the space axis and the dx field stay untouched because
channel_pitch_in / DX = 2/4 is below 2. -/
theorem c6_resample_shape_amended :
    resampleData 100 4 200 2
        (List.replicate 3334 ((List.range 400).map (fun j : ℕ => (j : ℚ)))) =
      (List.replicate 3334
          ((List.range 200).map (fun k : ℕ => (0 : ℚ) + 2 * k + 1/2)),
        100, 2) := by
  have h1 : (2 : ℚ) ≤ 200 / 100 := by norm_num
  have h2 : ¬ ((2 : ℚ) ≤ 2 / 4) := by norm_num
  have h3 : pyInt ((200 : ℚ) / 100) = 2 := by norm_num [pyInt]
  have htn : Int.toNat 2 = 2 := rfl
  simp only [resampleData, h1, h2, h3, htn, if_true, if_false, ite_true,
    ite_false, List.map_replicate]
  rw [List.range_eq_range', show (400 : ℕ) = 2 * 200 from rfl,
    blocksOf_two_mean_ramp 200 0]
  norm_num

/-! Claim C2: the startup resume protocol. -/

/-- C2: with a persisted checkpoint (ct, cur): when cur equals
SPS * CHUNK_SIZE or ct + cur/SPS reaches the next UTC midnight after ct,
the prior chunk counts as closed - the carry file is loaded when present
and a fresh chunk is started; otherwise the engine re-opens the on-disk
chunk file at (ct, cur), zero-pads its matrix to the full width
SPS * CHUNK_SIZE, resumes with cursor = cur, and fails with
RestoreMissing instead of starting fresh when that chunk file is
absent. -/
theorem c2_startup_resume (SPSc CHUNKc S : ℕ) (z : α) (ct : ℚ) (cur : ℕ)
    (carryFile : Option (Mat α)) (store : ℚ → Option (Mat α)) :
    ((cur = CHUNKc * SPSc ∨ nextMidnight ct ≤ ct + (cur : ℚ) / (SPSc : ℚ)) →
      startup SPSc CHUNKc S z (some (ct, cur)) carryFile store =
        .ok ⟨allocateEmpty S (SPSc * CHUNKc) z, 0, 0, carryFile, true, 0,
          ct, cur⟩) ∧
    (¬ (cur = CHUNKc * SPSc ∨ nextMidnight ct ≤ ct + (cur : ℚ) / (SPSc : ℚ)) →
      ∀ m : Mat α, store ct = some m →
        startup SPSc CHUNKc S z (some (ct, cur)) carryFile store =
          .ok ⟨m.map (fun r => r ++ List.replicate (SPSc * CHUNKc - width m) z),
            cur, ct, none, false, nextMidnight ct - ct, ct, cur⟩) ∧
    (¬ (cur = CHUNKc * SPSc ∨ nextMidnight ct ≤ ct + (cur : ℚ) / (SPSc : ℚ)) →
      store ct = none →
        startup SPSc CHUNKc S z (some (ct, cur)) carryFile store =
          .error .restoreMissing) := by
  refine ⟨fun h => ?_, fun h m hm => ?_, fun h hm => ?_⟩
  · simp only [startup, getPreviousFileData, if_pos h]
    simp
  · simp only [startup, getPreviousFileData, if_neg h, restorePreviousChunk,
      hm]
    simp
  · simp only [startup, getPreviousFileData, if_neg h, restorePreviousChunk,
      hm]
    simp

/-- C2 witness: SPS 2, CHUNK_SIZE 3, checkpoint (1700000000, 4): the
restore branch re-opens the stored 4-column chunk, zero-pads it to 6
columns and resumes at cursor 4. -/
theorem c2_startup_resume_witness :
    startup 2 3 1 (0 : ℚ) (some (1700000000, 4)) none
        (fun t => if t = 1700000000 then some [[5, 6, 7, 8]] else none) =
      .ok ⟨[[5, 6, 7, 8, 0, 0]], 4, 1700000000, none, false, 6400,
        1700000000, 4⟩ := by
  have h := (c2_startup_resume 2 3 1 (0 : ℚ) 1700000000 4 none
    (fun t => if t = 1700000000 then some [[5, 6, 7, 8]] else none)).2.1
    (by
      push_neg
      constructor
      · norm_num
      · norm_num [nextMidnight])
    [[5, 6, 7, 8]] (by norm_num)
  rw [h]
  norm_num [nextMidnight, width, List.replicate]

/-! Claim C8: opening a chunk with a pending carry. -/

theorem sliceCols_assignCols_self (k : ℕ) :
    ∀ (c m : Mat α), c.length ≤ m.length → (∀ r ∈ c, r.length = k) →
      sliceCols 0 k (assignCols 0 c m) = c
  | [], m, _, _ => by simp [sliceCols, assignCols]
  | s :: c2, [], h, _ => by simp at h
  | s :: c2, r :: m2, h, hr => by
    have hs : s.length = k := hr s (by simp)
    have ih := sliceCols_assignCols_self k c2 m2 (by simpa using h)
      (fun x hx => hr x (by simp [hx]))
    simp only [assignCols, sliceCols, List.zipWith_cons_cons, List.map_cons]
    simp only [assignCols, sliceCols] at ih
    rw [ih]
    congr 1
    simp only [List.take_zero, List.drop_zero, Nat.zero_add, Nat.sub_zero,
      List.nil_append]
    rw [← hs, List.take_left]

/-- C8: when a new chunk opens with a pending carry, chunk_time is first
set to previous_chunk_time + previous_cursor / SPS, the carry occupies
columns [0, carry width) with the cursor moved past it, and chunk_time is
then corrected to floor(chunk_time) + (P.timestamp - floor(P.timestamp)),
the fractional second coming from the first incoming packet. -/
theorem c8_open_chunk_with_carry (SPSc : ℕ) (st : EngState α) (ts : ℚ)
    (c : Mat α) (hc : st.carry = some c)
    (hrect : ∀ r ∈ c, r.length = width c)
    (hrows : c.length ≤ st.chunkData.length) :
    (openNewChunk SPSc ts st).chunkTime =
      (⌊st.prevTime + (st.prevOffset : ℚ) / (SPSc : ℚ)⌋ : ℚ) + (ts - ⌊ts⌋) ∧
    (openNewChunk SPSc ts st).offset = width c ∧
    sliceCols 0 (width c) (openNewChunk SPSc ts st).chunkData = c ∧
    (openNewChunk SPSc ts st).carry = none ∧
    (openNewChunk SPSc ts st).newChunk = false := by
  refine ⟨?_, ?_, ?_, ?_, ?_⟩
  · simp only [openNewChunk, hc]
  · simp only [openNewChunk, hc]
  · simp only [openNewChunk, hc]
    exact sliceCols_assignCols_self (width c) c st.chunkData hrows hrect
  · simp only [openNewChunk, hc]
  · simp only [openNewChunk, hc]

/-- C8 witness: previous_chunk_time 1699999940, previous_cursor 6000,
SPS 100 and first packet at 1700000000.37: the candidate chunk_time is
1700000000 and the corrected chunk_time is 1700000000.37; the two-column
carry sits in columns 0 and 1 and the cursor is 2. -/
theorem c8_open_chunk_with_carry_witness :
    (openNewChunk 100 (1700000000 + 37/100)
        (⟨[[9, 9, 9, 9]], 0, 0, some [[1, 2]], true, 0, 1699999940,
          6000⟩ : EngState ℚ)).chunkTime = 1700000000 + 37/100 ∧
    (openNewChunk 100 (1700000000 + 37/100)
        (⟨[[9, 9, 9, 9]], 0, 0, some [[1, 2]], true, 0, 1699999940,
          6000⟩ : EngState ℚ)).offset = 2 ∧
    sliceCols 0 2 (openNewChunk 100 (1700000000 + 37/100)
        (⟨[[9, 9, 9, 9]], 0, 0, some [[1, 2]], true, 0, 1699999940,
          6000⟩ : EngState ℚ)).chunkData = [[(1 : ℚ), 2]] := by
  have h := c8_open_chunk_with_carry 100
    (⟨[[9, 9, 9, 9]], 0, 0, some [[1, 2]], true, 0, 1699999940,
      6000⟩ : EngState ℚ)
    (1700000000 + 37/100) [[(1 : ℚ), 2]] rfl
    (by intro r hr; simp at hr; simp [hr, width])
    (by simp)
  have hw : width [[(1 : ℚ), 2]] = 2 := by simp [width]
  refine ⟨?_, ?_, ?_⟩
  · rw [h.1]
    norm_num
  · rw [h.2.1, hw]
  · rw [← hw]
    exact h.2.2.1

/-! Step lemmas for fillLoop: the loop body under explicit branch
decisions.  hst resolves the optional openNewChunk of the iteration; the
shape and skip tests read the state before it, the rest reads the state
after it, exactly as in the code. -/

/-- An iteration whose (already truncated) packet is interior: no day or
chunk split triggers, the packet is appended whole at the cursor and the
loop either stops (stop flag from _get_next_packet_data) or continues. -/
theorem fillLoop_interior_append (SPSc CHUNKc : ℕ) (fuel : ℕ)
    (st0 st : EngState α) (p p2 : Pkt α) (rest : List (Pkt α)) (stop0 : Bool)
    (hget : getNextPacketData SPSc p rest = (p2, stop0))
    (hshape : p2.data.length = st0.chunkData.length)
    (hskip : ¬ (p2.ts ≤
      (pyInt (st0.chunkTime + (st0.offset : ℚ) / (SPSc : ℚ) - p2.dur) : ℚ)))
    (hst : (if st0.newChunk then openNewChunk SPSc p2.ts st0 else st0) = st)
    (hstart : roundHE (st.chunkTime + (st.offset : ℚ) / (SPSc : ℚ) - p2.ts) < 1)
    (hday : ¬ ((roundHE (st.chunkToNextDay -
        (st.offset : ℚ) / (SPSc : ℚ)) : ℚ) <
      (width p2.data : ℚ) / (SPSc : ℚ)))
    (hchunk : ¬ ((CHUNKc : ℚ) - (st0.offset : ℚ) / (SPSc : ℚ) <
      (width p2.data : ℚ) / (SPSc : ℚ)))
    (hcons : timeInconsistency SPSc st.chunkTime st.offset p2.ts 0 = false) :
    fillLoop SPSc CHUNKc (fuel + 1) st0 (p :: rest) =
      (if stop0 then
        .ok ({ st with
            chunkData := assignCols st.offset
              (sliceCols 0 (width p2.data) p2.data) st.chunkData,
            offset := st.offset + width p2.data }, rest, .chunkStop)
      else
        fillLoop SPSc CHUNKc fuel
          ({ st with
              chunkData := assignCols st.offset
                (sliceCols 0 (width p2.data) p2.data) st.chunkData,
              offset := st.offset + width p2.data }) rest) := by
  rw [fillLoop, hget]
  simp only [if_neg (by simp [hshape] : ¬ (p2.data.length ≠ st0.chunkData.length)),
    if_neg hskip, hst, if_neg (not_le.2 hstart), if_neg hday, if_neg hchunk,
    if_neg (not_or.2 ⟨hday, hchunk⟩), decide_eq_false hday,
    decide_eq_false hchunk, Bool.or_false,
    hcons, Bool.false_eq_true, if_false, Int.toNat_natCast, Int.toNat_zero]
  have hoff : ((st.offset : ℤ) + ((width p2.data : ℤ) - 0)).toNat =
      st.offset + width p2.data := by omega
  rw [hoff]

/-- An iteration whose (already truncated) packet triggers the
day-boundary split: the first e columns are appended, the rest becomes
the carry, and the loop stops. -/
theorem fillLoop_day_split (SPSc CHUNKc : ℕ) (fuel : ℕ)
    (st0 st : EngState α) (p p2 : Pkt α) (rest : List (Pkt α)) (stop0 : Bool)
    (e : ℕ)
    (hget : getNextPacketData SPSc p rest = (p2, stop0))
    (hshape : p2.data.length = st0.chunkData.length)
    (hskip : ¬ (p2.ts ≤
      (pyInt (st0.chunkTime + (st0.offset : ℚ) / (SPSc : ℚ) - p2.dur) : ℚ)))
    (hst : (if st0.newChunk then openNewChunk SPSc p2.ts st0 else st0) = st)
    (hstart : roundHE (st.chunkTime + (st.offset : ℚ) / (SPSc : ℚ) - p2.ts) < 1)
    (hday : (roundHE (st.chunkToNextDay -
        (st.offset : ℚ) / (SPSc : ℚ)) : ℚ) <
      (width p2.data : ℚ) / (SPSc : ℚ))
    (hend : (e : ℤ) = pyInt ((SPSc : ℚ) *
      (roundHE (st.chunkToNextDay - (st.offset : ℚ) / (SPSc : ℚ)) : ℚ)))
    (hcons : timeInconsistency SPSc st.chunkTime st.offset p2.ts 0 = false) :
    fillLoop SPSc CHUNKc (fuel + 1) st0 (p :: rest) =
      .ok ({ st with
          carry := some (dropCols e p2.data),
          chunkData := assignCols st.offset (sliceCols 0 e p2.data)
            st.chunkData,
          offset := st.offset + e }, rest, .chunkStop) := by
  rw [fillLoop, hget]
  simp only [if_neg (by simp [hshape] : ¬ (p2.data.length ≠ st0.chunkData.length)),
    if_neg hskip, hst, if_neg (not_le.2 hstart), if_pos hday, ← hend,
    hcons, Bool.false_eq_true, if_false, Int.toNat_natCast, Int.toNat_zero,
    if_pos (Or.inl hday), decide_eq_true hday, Bool.or_true, Bool.true_or,
    if_true]
  have hoff : ((st.offset : ℤ) + ((e : ℤ) - 0)).toNat =
      st.offset + e := by omega
  rw [hoff]

/-! Claim C4: the day-boundary split. -/

/-- Fresh engine state for the C4 counterexample (one space row, fresh
chunk, SPS 100, CHUNK_SIZE 60). -/
def c4state : EngState ℚ :=
  ⟨allocateEmpty 1 6000 0, 0, 0, none, true, 0, 0, 0⟩

/-- Packet for the C4 counterexample: 4 seconds, 400 columns, at the
fractional timestamp 1700006398.37, crossing the UTC midnight
1700006400. -/
def c4packet : Pkt ℚ :=
  ⟨1700006398 + 37/100, 4, [List.replicate 400 (0 : ℚ)]⟩

/-- The state c4state after the chunk opens at the packet time. -/
def c4opened : EngState ℚ :=
  ⟨allocateEmpty 1 6000 0, 0, 1700006398 + 37/100, none, false, 2, 0, 0⟩

/-- C4 counterexample: with the drift-corrected fractional chunk_time
1700006398.37 (carrying the packet's sub-second part, as the engine
itself produces), a 4-second packet crossing midnight is split after 200
columns - the code rounds the time to the day mark to whole seconds - even
though SPS x (next_midnight - chunk_time - cursor/SPS) = 163: the
algebraically determined count differs from what the engine writes. -/
theorem c4_day_split_counterexample :
    ((fillLoop 100 60 1 c4state [c4packet]).map
        (fun r => (r.1.offset, (r.1.carry.getD []).length,
          width (r.1.carry.getD []), r.1.chunkTime))) =
      .ok (200, 1, 200, 1700006398 + 37/100) ∧
    c4packet.ts + c4packet.dur > nextMidnight (1700006398 + 37/100) ∧
    ¬ ((200 : ℚ) = 100 * (nextMidnight (1700006398 + 37/100) -
      (1700006398 + 37/100) - (0 : ℚ) / 100)) := by
  have hst : (if c4state.newChunk then openNewChunk 100 c4packet.ts c4state
      else c4state) = c4opened := by
    simp only [c4state, openNewChunk, c4packet, c4opened, if_true]
    norm_num [nextMidnight, roundHE]
  have hrun := fillLoop_day_split 100 60 0 c4state c4opened c4packet c4packet
    [] true 200 rfl
    (by simp only [c4packet, c4state, allocateEmpty, List.length_replicate,
      List.length_singleton])
    (by
      show ¬ ((1700006398 + 37/100 : ℚ) ≤
        (pyInt ((0 : ℚ) + ((0 : ℕ) : ℚ) / (100 : ℚ) - 4) : ℚ))
      norm_num [pyInt])
    hst
    (by
      show roundHE ((1700006398 + 37/100 : ℚ) +
        ((0 : ℕ) : ℚ) / (100 : ℚ) - (1700006398 + 37/100)) < 1
      norm_num [roundHE])
    (by
      show ((roundHE ((2 : ℚ) - ((0 : ℕ) : ℚ) / (100 : ℚ)) : ℤ) : ℚ) <
        ((List.replicate 400 (0 : ℚ)).length : ℚ) / (100 : ℚ)
      rw [List.length_replicate]
      norm_num [roundHE])
    (by
      show ((200 : ℕ) : ℤ) = pyInt ((100 : ℚ) *
        ((roundHE ((2 : ℚ) - ((0 : ℕ) : ℚ) / (100 : ℚ)) : ℤ) : ℚ))
      norm_num [roundHE, pyInt])
    (by
      show timeInconsistency 100 (1700006398 + 37/100) 0
        (1700006398 + 37/100) 0 = false
      norm_num [timeInconsistency, roundTo1, roundHE])
  rw [hrun]
  have h1 : (dropCols 200 c4packet.data).length = 1 := by
    simp only [dropCols, c4packet, List.length_map, List.length_singleton]
  have h2 : width (dropCols 200 c4packet.data) = 200 := by
    show (List.drop 200 (List.replicate 400 (0 : ℚ))).length = 200
    rw [List.drop_replicate, List.length_replicate]
  refine ⟨?_, ?_, ?_⟩
  · show Except.ok (((0 : ℕ) + 200, (dropCols 200 c4packet.data).length,
      width (dropCols 200 c4packet.data), c4opened.chunkTime)) =
      Except.ok ((200 : ℕ), (1 : ℕ), (200 : ℕ), (1700006398 + 37/100 : ℚ))
    rw [h1, h2]
    norm_num [c4opened]
  · show (1700006398 + 37/100 : ℚ) + 4 > nextMidnight (1700006398 + 37/100)
    norm_num [nextMidnight]
  · norm_num [nextMidnight]

/-- Engine state for the C4 amended witness: the spec's concrete
scenario, with integral chunk_time 1700006398 and 1667 space rows. -/
def c4wstate : EngState ℚ :=
  ⟨allocateEmpty 1667 6000 0, 0, 1700006398, none, false, 2, 0, 0⟩

/-- Packet of the spec's concrete scenario: t = 1700006398, 4 s, SPS 100,
S = 1667. -/
def c4wpacket : Pkt ℚ :=
  ⟨1700006398, 4, List.replicate 1667 (List.replicate 400 (0 : ℚ))⟩

/-- C4 (amended): the engine rounds the remaining-time-to-midnight to
whole seconds, so the day split writes SPS x round(chunk_to_next_day -
cursor/SPS) columns; when chunk_time is integral and the cursor is a whole
number m of seconds this equals the claimed SPS x (next_midnight -
chunk_time - cursor/SPS) exactly: that many columns are appended, all
remaining columns become the carry, and the chunk closes.  (For fractional
chunk_time the counts differ, as the counterexample shows; the claim's
concrete scenario - 200 columns appended, carry of shape (1667, 200) - is
the witness below.) -/
theorem c4_day_split_aligned (SPSc CHUNKc : ℕ) (st : EngState α) (p : Pkt α)
    (m : ℕ) (hsps : 0 < SPSc)
    (hnew : st.newChunk = false)
    (hint : st.chunkTime = (⌊st.chunkTime⌋ : ℚ))
    (hoff : st.offset = SPSc * m)
    (hctnd : st.chunkToNextDay = nextMidnight st.chunkTime - st.chunkTime)
    (hts : p.ts = st.chunkTime + (m : ℚ))
    (hdur : 1 ≤ p.dur)
    (hrows : p.data.length = st.chunkData.length)
    (hm : (m : ℚ) ≤ nextMidnight st.chunkTime - st.chunkTime)
    (htrig : nextMidnight st.chunkTime - st.chunkTime - (m : ℚ) <
      (width p.data : ℚ) / (SPSc : ℚ)) :
    ∃ e : ℕ,
      (e : ℚ) = (SPSc : ℚ) * (nextMidnight st.chunkTime - st.chunkTime -
        (st.offset : ℚ) / (SPSc : ℚ)) ∧
      fillLoop SPSc CHUNKc 1 st [p] =
        .ok ({ st with
            carry := some (dropCols e p.data),
            chunkData := assignCols st.offset (sliceCols 0 e p.data)
              st.chunkData,
            offset := st.offset + e }, [], .chunkStop) ∧
      (∀ r ∈ p.data, (List.drop e r).length = r.length - e) := by
  have hQ : (SPSc : ℚ) ≠ 0 := by positivity
  have hoffq : (st.offset : ℚ) / (SPSc : ℚ) = (m : ℚ) := by
    rw [hoff]; push_cast; field_simp
  -- the integer number of seconds from the chunk time to its midnight
  set D : ℤ := 86400 * (⌊st.chunkTime / 86400⌋ + 1) - ⌊st.chunkTime⌋ with hD
  have hDq : (D : ℚ) = nextMidnight st.chunkTime - st.chunkTime := by
    rw [hD, nextMidnight]
    push_cast
    rw [← hint]
  have hDm : (m : ℤ) ≤ D := by
    have : (m : ℚ) ≤ (D : ℚ) := by rw [hDq]; exact hm
    exact_mod_cast this
  have htnd : st.chunkToNextDay - (st.offset : ℚ) / (SPSc : ℚ) =
      ((D - m : ℤ) : ℚ) := by
    rw [hctnd, hoffq, ← hDq]; push_cast; ring
  have hround : roundHE (st.chunkToNextDay - (st.offset : ℚ) / (SPSc : ℚ))
      = D - m := by rw [htnd, roundHE_intCast]
  refine ⟨(SPSc * (D - m)).toNat, ?_, ?_, ?_⟩
  · have hnn : (0 : ℤ) ≤ SPSc * (D - m) :=
      mul_nonneg (by positivity) (by omega)
    have : (((SPSc * (D - m)).toNat : ℤ) : ℚ) = ((SPSc * (D - m) : ℤ) : ℚ) := by
      rw [Int.toNat_of_nonneg hnn]
    rw [← Int.cast_natCast, this, hoffq]
    push_cast
    linear_combination (SPSc : ℚ) * hDq
  · have hzero : st.chunkTime + (st.offset : ℚ) / (SPSc : ℚ) - p.ts = 0 := by
      rw [hoffq, hts]; ring
    have harg : st.chunkTime + (st.offset : ℚ) / (SPSc : ℚ) = p.ts := by
      linarith [hzero]
    have hrun := fillLoop_day_split SPSc CHUNKc 0 st st p p [] true
      ((SPSc * (D - m)).toNat) rfl hrows
      (by rw [harg]; exact not_le.2 (pyInt_sub_lt p.ts p.dur hdur))
      (by rw [hnew]; simp)
      (by rw [hzero, roundHE_zero]; norm_num)
      (by
        rw [hround]
        have hcast : ((D - (m : ℤ) : ℤ) : ℚ) =
            nextMidnight st.chunkTime - st.chunkTime - (m : ℚ) := by
          push_cast
          linear_combination hDq
        rw [hcast]
        exact htrig)
      (by
        rw [hround]
        have hnn : (0 : ℤ) ≤ SPSc * (D - m) :=
          mul_nonneg (by positivity) (by omega)
        rw [Int.toNat_of_nonneg hnn]
        have : ((SPSc : ℚ)) * ((D - m : ℤ) : ℚ) = ((SPSc * (D - m) : ℤ) : ℚ) := by
          push_cast; ring
        rw [this, pyInt_intCast])
      (by
        unfold timeInconsistency
        have : st.chunkTime + (st.offset : ℚ) / (SPSc : ℚ) -
            (p.ts + ((0 : ℤ) : ℚ) / (SPSc : ℚ)) = 0 := by
          push_cast
          rw [hoffq, hts]; ring
        rw [this]
        unfold roundTo1
        rw [mul_zero, roundHE_zero]
        norm_num)
    exact hrun
  · intro r _
    simp

/-- C4 witness: the spec's scenario at integral chunk_time 1700006398,
cursor 0: the chunk gains exactly 200 columns and the carry has shape
(1667, 200). -/
theorem c4_day_split_aligned_witness :
    fillLoop 100 60 1 c4wstate [c4wpacket] =
      .ok ({ c4wstate with
          carry := some (dropCols 200 c4wpacket.data),
          chunkData := assignCols 0 (sliceCols 0 200 c4wpacket.data)
            (allocateEmpty 1667 6000 0),
          offset := 200 }, [], .chunkStop) ∧
    (dropCols 200 c4wpacket.data).length = 1667 ∧
    width (dropCols 200 c4wpacket.data) = 200 := by
  obtain ⟨e, he, hrun, _⟩ := c4_day_split_aligned 100 60 c4wstate c4wpacket 0
    (by norm_num)
    rfl
    (by show (1700006398 : ℚ) = (⌊(1700006398 : ℚ)⌋ : ℚ); norm_num)
    (by show (0 : ℕ) = 100 * 0; norm_num)
    (by
      show (2 : ℚ) = nextMidnight 1700006398 - 1700006398
      norm_num [nextMidnight])
    (by show (1700006398 : ℚ) = 1700006398 + ((0 : ℕ) : ℚ); norm_num)
    (by show (1 : ℚ) ≤ 4; norm_num)
    (by simp only [c4wpacket, c4wstate, allocateEmpty, List.length_replicate])
    (by
      show ((0 : ℕ) : ℚ) ≤ nextMidnight 1700006398 - 1700006398
      norm_num [nextMidnight])
    (by
      show nextMidnight 1700006398 - 1700006398 - ((0 : ℕ) : ℚ) <
        ((List.replicate 400 (0 : ℚ)).length : ℚ) / (100 : ℚ)
      rw [List.length_replicate]
      norm_num [nextMidnight])
  have he200 : e = 200 := by
    have h2 : (e : ℚ) = 200 := by
      rw [he]
      show (100 : ℚ) * (nextMidnight 1700006398 - 1700006398 -
        ((0 : ℕ) : ℚ) / (100 : ℚ)) = 200
      norm_num [nextMidnight]
    exact_mod_cast h2
  subst he200
  refine ⟨?_, ?_, ?_⟩
  · exact hrun
  · simp only [dropCols, c4wpacket, List.length_map, List.length_replicate]
  · show (List.drop 200 (List.replicate 400 (0 : ℚ))).length = 200
    rw [List.drop_replicate, List.length_replicate]

/-! Claim C9: behaviour at source exhaustion. -/

/-- Whole seconds from time t to the midnight mark used by the fill loop
(the microsecond-preserving replace makes the difference an integer). -/
def midSecs (t : ℚ) : ℤ := 86400 * (⌊t / 86400⌋ + 1) - ⌊t⌋

/-- Opening a new chunk with no pending carry: chunk_time becomes the
packet timestamp (the drift correction is the identity there) and
chunk_to_next_day the whole-second distance to the midnight mark. -/
theorem openNewChunk_no_carry (SPSc : ℕ) (ts : ℚ) (st : EngState α)
    (hc : st.carry = none) :
    openNewChunk SPSc ts st =
      { st with
          chunkTime := ts,
          newChunk := false,
          chunkToNextDay := (midSecs ts : ℚ) } := by
  simp only [openNewChunk, hc]
  have hct : (⌊ts⌋ : ℚ) + (ts - ⌊ts⌋) = ts := by ring
  rw [hct]
  have hmid : nextMidnight ts + (ts - ⌊ts⌋) - ts = ((midSecs ts : ℤ) : ℚ) := by
    unfold nextMidnight midSecs
    push_cast
    ring
  rw [hmid, roundHE_intCast]

/-- The engine state right after a fresh start (startup with no
checkpoint): an empty chunk buffer and the new_chunk flag. -/
def freshEng (SPSc CHUNKc S : ℕ) (z : α) : EngState α :=
  ⟨allocateEmpty S (SPSc * CHUNKc) z, 0, 0, none, true, 0, 0, 0⟩

theorem pyInt_neg_nonpos (d : ℚ) (hd : 0 ≤ d) : (pyInt (-d) : ℚ) ≤ 0 := by
  unfold pyInt
  split_ifs with h
  · have h0 : (⌊-d⌋ : ℚ) ≤ -d := Int.floor_le _
    linarith
  · push_cast
    have h0 : (0 : ℚ) ≤ (⌊d⌋ : ℚ) := by
      have : (0 : ℤ) ≤ ⌊d⌋ := Int.floor_nonneg.2 hd
      exact_mod_cast this
    simp only [neg_neg]
    linarith

/-- C9 (amended): when the packet source is exhausted the in-progress
chunk IS flushed: _get_next_packet_data reports the stop flag on the last
file, _fill_chunk_data appends it and breaks, and _concat_files always
cuts the chunk to the cursor and hands it to the sink before rewriting
the checkpoint; the incompleteness is recorded only through
cursor < SPS * CHUNK_SIZE in SAVE/last, which is what makes the next run
re-open the on-disk partial chunk (restore mode of C2) instead of
starting fresh. -/
theorem c9_exhaustion_flush (SPSc CHUNKc S : ℕ) (z : α) (p : Pkt α)
    (hS : p.data.length = S)
    (hrect : ∀ r ∈ p.data, r.length = width p.data)
    (hts : 0 < p.ts) (hdur : 0 ≤ p.dur)
    (hday : (width p.data : ℚ) / (SPSc : ℚ) ≤ (midSecs p.ts : ℚ))
    (hfit : (width p.data : ℚ) / (SPSc : ℚ) ≤ (CHUNKc : ℚ))
    (hlt : width p.data < SPSc * CHUNKc) :
    concatFiles SPSc CHUNKc S z 2 none none (fun _ => none) [p] =
      .ok [.sink p.ts p.data, .checkpoint p.ts (width p.data)] ∧
    width p.data < SPSc * CHUNKc := by
  refine ⟨?_, hlt⟩
  have hw : ∀ r ∈ p.data, r.length ≤ width p.data :=
    fun r hr => le_of_eq (hrect r hr)
  have hopen : (if (freshEng SPSc CHUNKc S z).newChunk then
      openNewChunk SPSc p.ts (freshEng SPSc CHUNKc S z)
      else freshEng SPSc CHUNKc S z) =
      ⟨allocateEmpty S (SPSc * CHUNKc) z, 0, p.ts, none, false,
        (midSecs p.ts : ℚ), 0, 0⟩ := by
    have hnc : (freshEng SPSc CHUNKc S z).newChunk = true := rfl
    rw [if_pos hnc, openNewChunk_no_carry SPSc p.ts _ rfl]
    rfl
  have hstep := fillLoop_interior_append SPSc CHUNKc 1
    (freshEng SPSc CHUNKc S z)
    ⟨allocateEmpty S (SPSc * CHUNKc) z, 0, p.ts, none, false,
      (midSecs p.ts : ℚ), 0, 0⟩
    p p [] true rfl
    (by
      show p.data.length = (allocateEmpty S (SPSc * CHUNKc) z).length
      rw [hS, allocateEmpty, List.length_replicate])
    (by
      show ¬ (p.ts ≤ (pyInt ((0 : ℚ) + ((0 : ℕ) : ℚ) / (SPSc : ℚ) -
        p.dur) : ℚ))
      push_neg
      have h0 : (0 : ℚ) + ((0 : ℕ) : ℚ) / (SPSc : ℚ) - p.dur = -p.dur := by
        push_cast; ring
      rw [h0]
      calc (pyInt (-p.dur) : ℚ) ≤ 0 := pyInt_neg_nonpos p.dur hdur
        _ < p.ts := hts)
    hopen
    (by
      show roundHE (p.ts + ((0 : ℕ) : ℚ) / (SPSc : ℚ) - p.ts) < 1
      have h0 : p.ts + ((0 : ℕ) : ℚ) / (SPSc : ℚ) - p.ts = 0 := by
        push_cast; ring
      rw [h0, roundHE_zero]
      norm_num)
    (by
      show ¬ ((roundHE ((midSecs p.ts : ℚ) -
        ((0 : ℕ) : ℚ) / (SPSc : ℚ)) : ℚ) < (width p.data : ℚ) / (SPSc : ℚ))
      push_neg
      have h0 : (midSecs p.ts : ℚ) - ((0 : ℕ) : ℚ) / (SPSc : ℚ) =
          ((midSecs p.ts : ℤ) : ℚ) := by push_cast; ring
      rw [h0, roundHE_intCast]
      exact hday)
    (by
      show ¬ ((CHUNKc : ℚ) - ((0 : ℕ) : ℚ) / (SPSc : ℚ) <
        (width p.data : ℚ) / (SPSc : ℚ))
      push_neg
      have h0 : (CHUNKc : ℚ) - ((0 : ℕ) : ℚ) / (SPSc : ℚ) = (CHUNKc : ℚ) := by
        push_cast; ring
      rw [h0]
      exact hfit)
    (by
      unfold timeInconsistency
      have h0 : p.ts + ((0 : ℕ) : ℚ) / (SPSc : ℚ) -
          (p.ts + ((0 : ℤ) : ℚ) / (SPSc : ℚ)) = 0 := by push_cast; ring
      rw [h0]
      unfold roundTo1
      rw [mul_zero, roundHE_zero]
      norm_num)
  have hstep2 : fillLoop SPSc CHUNKc (1 + 1) (freshEng SPSc CHUNKc S z) [p] =
      .ok (⟨assignCols 0 (sliceCols 0 (width p.data) p.data)
          (allocateEmpty S (SPSc * CHUNKc) z), 0 + width p.data, p.ts, none,
          false, (midSecs p.ts : ℚ), 0, 0⟩, [], .chunkStop) := hstep
  have hsink : sliceCols 0 (0 + width p.data)
      (assignCols 0 (sliceCols 0 (width p.data) p.data)
        (allocateEmpty S (SPSc * CHUNKc) z)) = p.data := by
    rw [Nat.zero_add, sliceCols_zero_full (width p.data) p.data hw,
      sliceCols_assignCols_self (width p.data) p.data _
        (by rw [allocateEmpty, List.length_replicate, hS]) hrect]
  show concatFiles SPSc CHUNKc S z 2 none none (fun _ => none) [p] = _
  simp only [concatFiles, startup, getPreviousFileData, Bool.false_eq_true,
    if_false, concatLoop]
  simp only [freshEng] at hstep2
  rw [hstep2]
  simp only [saveChunkEvents, List.nil_append, afterSave, concatLoop]
  rw [hsink, Nat.zero_add, List.append_nil]

/-- C9 witness: the amended statement at a 2-second packet (4 of 6
columns filled): the sink receives the partial chunk and the checkpoint
records cursor 4. -/
theorem c9_exhaustion_flush_witness :
    concatFiles 2 3 1 (0 : ℚ) 2 none none (fun _ => none)
        [⟨1700000060, 2, [[7, 8, 9, 10]]⟩] =
      .ok [.sink 1700000060 [[7, 8, 9, 10]],
        .checkpoint 1700000060 (width [[(7 : ℚ), 8, 9, 10]])] ∧
    width [[(7 : ℚ), 8, 9, 10]] < 2 * 3 :=
  c9_exhaustion_flush 2 3 1 (0 : ℚ) ⟨1700000060, 2, [[7, 8, 9, 10]]⟩
    (by simp)
    (by intro r hr; simp at hr; simp [hr, width])
    (by norm_num)
    (by norm_num)
    (by
      show ((width [[(7 : ℚ), 8, 9, 10]] : ℕ) : ℚ) / (2 : ℚ) ≤
        ((midSecs 1700000060 : ℤ) : ℚ)
      norm_num [width, midSecs])
    (by norm_num [width])
    (by norm_num [width])

/-- C9 counterexample: SPS 2, CHUNK_SIZE 3, a single 1-second packet on a
fresh start.  The run hands the truncated 2-column chunk (cursor 2 of 6)
to the sink and rewrites the checkpoint: the in-progress chunk IS
force-flushed at exhaustion, contradicting the claim that only the
checkpoint remains. -/
theorem c9_exhaustion_counterexample :
    concatFiles 2 3 1 (0 : ℚ) 2 none none (fun _ => none)
        [⟨1700000000, 1, [[5, 6]]⟩] =
      .ok [.sink 1700000000 [[5, 6]], .checkpoint 1700000000 2] ∧
    (2 : ℕ) < 2 * 3 := by
  have h := c9_exhaustion_flush 2 3 1 (0 : ℚ) ⟨1700000000, 1, [[5, 6]]⟩
    (by simp)
    (by intro r hr; simp at hr; simp [hr, width])
    (by norm_num)
    (by norm_num)
    (by
      show ((width [[(5 : ℚ), 6]] : ℕ) : ℚ) / (2 : ℚ) ≤
        ((midSecs 1700000000 : ℤ) : ℚ)
      norm_num [width, midSecs])
    (by norm_num [width])
    (by norm_num [width])
  simpa [width] using h

/-! Claim C1: every accepted sample lands exactly once at its
algebraically determined column.  Sample provenance is tracked by running
the engine on matrices whose cell values are tags: the cell of column j of
packet i holds some (i, j), and the never-written cells of the chunk
buffer (np.empty garbage) hold none. -/

abbrev Tag := Option (ℕ × ℕ)

/-- One row of packet i of duration d: SPSc * d columns, column j tagged
with (i, j). -/
def segRow (SPSc i d : ℕ) : List Tag :=
  (List.range (SPSc * d)).map (fun j => some (i, j))

/-- The abutting whole-second packet stream: the packet after t starts at
t exactly, lasts d seconds, and carries S identical tagged rows of
SPSc * d columns; its followers start where it ends. -/
def tagPkts (S SPSc : ℕ) : ℚ → ℕ → List ℕ → List (Pkt Tag)
  | _, _, [] => []
  | t, i, d :: ds =>
    ⟨t, (d : ℚ), List.replicate S (segRow SPSc i d)⟩ ::
      tagPkts S SPSc (t + (d : ℚ)) (i + 1) ds

/-- Concatenation of the segment rows of packets i0, i0+1, ... -/
def doneRow (SPSc : ℕ) : ℕ → List ℕ → List Tag
  | _, [] => []
  | i, d :: ds => segRow SPSc i d ++ doneRow SPSc (i + 1) ds

theorem segRow_length (SPSc i d : ℕ) : (segRow SPSc i d).length = SPSc * d := by
  simp [segRow]

theorem doneRow_length (SPSc : ℕ) : ∀ (i0 : ℕ) (ds : List ℕ),
    (doneRow SPSc i0 ds).length = SPSc * ds.sum
  | _, [] => by simp [doneRow]
  | i0, d :: ds => by
    simp [doneRow, segRow_length, doneRow_length SPSc (i0 + 1) ds,
      Nat.mul_add]

theorem replicate_get? (a : α) : ∀ (n m : ℕ),
    (List.replicate n a).get? m = if m < n then some a else none
  | 0, m => by simp
  | n + 1, 0 => by simp [List.replicate_succ]
  | n + 1, m + 1 => by
    simp only [List.replicate_succ, List.get?_cons_succ,
      replicate_get? a n m]
    by_cases h : m < n
    · rw [if_pos h, if_pos (by omega)]
    · rw [if_neg h, if_neg (by omega)]

theorem segRow_get? (SPSc i d j : ℕ) (hj : j < SPSc * d) :
    (segRow SPSc i d).get? j = some (some (i, j)) := by
  simp [segRow, List.get?_map, List.getElem?_range hj]

/-- Forward indexing into the concatenated segments: sample j of the k-th
listed packet sits at column SPSc * (sum of the prior durations) + j. -/
theorem doneRow_get? (SPSc : ℕ) : ∀ (ds : List ℕ) (i0 k d j : ℕ),
    ds.get? k = some d → j < SPSc * d →
    (doneRow SPSc i0 ds).get? (SPSc * (ds.take k).sum + j) =
      some (some (i0 + k, j))
  | [], _, k, _, _, h, _ => by simp at h
  | d0 :: ds, i0, 0, d, j, h, hj => by
    simp only [List.get?_cons_zero, Option.some.injEq] at h
    rcases h with rfl
    simp only [doneRow, List.take_zero, List.sum_nil, Nat.mul_zero,
      Nat.zero_add, Nat.add_zero]
    rw [List.get?_append (by rw [segRow_length]; exact hj)]
    exact segRow_get? SPSc i0 _ j hj
  | d0 :: ds, i0, k + 1, d, j, h, hj => by
    simp only [List.get?_cons_succ] at h
    have ih := doneRow_get? SPSc ds (i0 + 1) k d j h hj
    simp only [doneRow, List.take_succ_cons, List.sum_cons, Nat.mul_add]
    rw [List.get?_append_right (by rw [segRow_length]; omega)]
    rw [segRow_length]
    have harith : SPSc * d0 + (SPSc * (ds.take k).sum + j) - SPSc * d0 =
        SPSc * (ds.take k).sum + j := by omega
    rw [Nat.add_assoc, harith, ih]
    simp only [Option.some.injEq, Prod.mk.injEq]
    exact ⟨by omega, trivial⟩

/-- Inverse indexing: a cell holding the tag (t, j) can only sit at the
column SPSc * (sum of the durations before packet t) + j. -/
theorem doneRow_get?_inv (SPSc : ℕ) : ∀ (ds : List ℕ) (i0 c t j : ℕ),
    (doneRow SPSc i0 ds).get? c = some (some (t, j)) →
    ∃ k d, ds.get? k = some d ∧ t = i0 + k ∧ j < SPSc * d ∧
      c = SPSc * (ds.take k).sum + j
  | [], _, c, _, _, h => by simp [doneRow] at h
  | d0 :: ds, i0, c, t, j, h => by
    by_cases hc : c < SPSc * d0
    · rw [doneRow, List.get?_append (by rw [segRow_length]; exact hc)] at h
      rw [segRow_get? SPSc i0 d0 c hc] at h
      simp only [Option.some.injEq] at h
      obtain ⟨ht, hj⟩ := Prod.mk.injEq .. ▸ h
      exact ⟨0, d0, rfl, by omega, by omega, by simp [← hj]⟩
    · push_neg at hc
      rw [doneRow, List.get?_append_right
        (by rw [segRow_length]; exact hc), segRow_length] at h
      obtain ⟨k, d, hk, ht, hj, hcol⟩ :=
        doneRow_get?_inv SPSc ds (i0 + 1) (c - SPSc * d0) t j h
      refine ⟨k + 1, d, by simpa using hk, by omega, hj, ?_⟩
      simp only [List.take_succ_cons, List.sum_cons, Nat.mul_add]
      omega

theorem assignCols_replicate (o n : ℕ) (b a : List α) :
    assignCols o (List.replicate n b) (List.replicate n a) =
      List.replicate n (a.take o ++ b ++ a.drop (o + b.length)) := by
  unfold assignCols
  exact List.zipWith_replicate'

/-- Writing a segment at the cursor of a partially filled row: the filled
prefix stays, the segment lands after it, the untouched tail shrinks. -/
theorem invRow_step (o full : ℕ) (done seg : List Tag)
    (hdone : done.length = o) :
    (done ++ List.replicate (full - o) (none : Tag)).take o ++ seg ++
      (done ++ List.replicate (full - o) (none : Tag)).drop (o + seg.length) =
      (done ++ seg) ++
        List.replicate (full - (o + seg.length)) (none : Tag) := by
  have h1 : (done ++ List.replicate (full - o) (none : Tag)).take o = done := by
    rw [← hdone, List.take_left]
  have h2 : (done ++ List.replicate (full - o) (none : Tag)).drop
      (o + seg.length) = List.replicate (full - (o + seg.length))
      (none : Tag) := by
    have h3 : o + seg.length = done.length + seg.length := by omega
    rw [h3, List.drop_append, List.drop_replicate]
    congr 1
    omega
  rw [h1, h2, List.append_assoc]

/-- The list-truncation of _get_next_packet_data is the identity on an
exactly abutting whole-second packet. -/
theorem getNext_abutting (S SPSc : ℕ) (t : ℚ) (i d : ℕ) (q : Pkt Tag)
    (rest : List (Pkt Tag)) (hq : q.ts = t + (d : ℚ)) :
    getNextPacketData SPSc ⟨t, (d : ℚ), List.replicate S (segRow SPSc i d)⟩
      (q :: rest) =
      (⟨t, (d : ℚ), List.replicate S (segRow SPSc i d)⟩, false) := by
  simp only [getNextPacketData]
  have hdiff : q.ts - (t : ℚ) = ((d : ℤ) : ℚ) := by rw [hq]; push_cast; ring
  rw [hdiff, roundHE_intCast, pyInt_intCast]
  rw [if_neg (by push_cast; exact lt_irrefl _)]
  have hsb : ((SPSc : ℤ) * (d : ℤ)).toNat = SPSc * d := by
    have : (SPSc : ℤ) * (d : ℤ) = ((SPSc * d : ℕ) : ℤ) := by push_cast; ring
    rw [this, Int.toNat_natCast]
  rw [hsb, sliceCols_zero_full (SPSc * d) _
    (fun r hr => by rw [List.eq_of_mem_replicate hr, segRow_length])]

/-- The truncation of _get_next_packet_data is the identity on an exactly
abutting whole-second packet, for any shape of the remaining stream; the
stop flag is set exactly when no packet follows. -/
theorem getNext_abutting_any (S SPSc : ℕ) (t : ℚ) (i d : ℕ) (l : List ℕ) :
    getNextPacketData SPSc ⟨t, (d : ℚ), List.replicate S (segRow SPSc i d)⟩
      (tagPkts S SPSc (t + (d : ℚ)) (i + 1) l) =
      (⟨t, (d : ℚ), List.replicate S (segRow SPSc i d)⟩, l.isEmpty) := by
  rcases l with _ | ⟨x, l2⟩
  · rfl
  · exact getNext_abutting S SPSc t i d _ _ rfl

/-- The fill loop on a stream of exactly abutting whole-second packets
appended to a partially filled open chunk: every packet is appended whole
at the cursor, in order, and the loop stops after the last one. -/
theorem fillLoop_abutting (SPSc CHUNKc S : ℕ) (hsps : 0 < SPSc)
    (hS : 0 < S) (ts0 : ℚ) (pT : ℚ) (pO : ℕ) :
    ∀ (ds : List ℕ) (f i0 Δ : ℕ) (done : List Tag),
      ds ≠ [] → (∀ d ∈ ds, 1 ≤ d) →
      done.length = SPSc * Δ →
      Δ + ds.sum ≤ CHUNKc →
      ((Δ + ds.sum : ℕ) : ℚ) ≤ ((midSecs ts0 : ℤ) : ℚ) →
      ds.length ≤ f →
      fillLoop SPSc CHUNKc f
        (⟨List.replicate S (done ++
            List.replicate (SPSc * CHUNKc - SPSc * Δ) (none : Tag)),
          SPSc * Δ, ts0, none, false, ((midSecs ts0 : ℤ) : ℚ), pT, pO⟩ :
            EngState Tag)
        (tagPkts S SPSc (ts0 + (Δ : ℚ)) i0 ds) =
      .ok (⟨List.replicate S ((done ++ doneRow SPSc i0 ds) ++
            List.replicate (SPSc * CHUNKc - SPSc * (Δ + ds.sum))
              (none : Tag)),
          SPSc * (Δ + ds.sum), ts0, none, false, ((midSecs ts0 : ℤ) : ℚ),
          pT, pO⟩,
        [], .chunkStop)
  | [], _, _, _, _, hne, _, _, _, _, _ => absurd rfl hne
  | d :: ds2, f, i0, Δ, done, _, hpos, hdone, hfit, hday, hf => by
    obtain ⟨f1, rfl⟩ : ∃ f1, f = f1 + 1 :=
      ⟨f - 1, by simp only [List.length_cons] at hf; omega⟩
    have hQ : (SPSc : ℚ) ≠ 0 := by positivity
    have hdiv : ((SPSc * Δ : ℕ) : ℚ) / (SPSc : ℚ) = (Δ : ℚ) := by
      push_cast
      exact mul_div_cancel_left₀ _ hQ
    have hd1 : 1 ≤ d := hpos d (by simp)
    have hdn : Δ + d ≤ Δ + (d :: ds2).sum := by
      simp only [List.sum_cons]
      omega
    have hdayq : (Δ : ℚ) + (d : ℚ) ≤ ((midSecs ts0 : ℤ) : ℚ) := by
      calc (Δ : ℚ) + (d : ℚ) = ((Δ + d : ℕ) : ℚ) := by push_cast; ring
        _ ≤ ((Δ + (d :: ds2).sum : ℕ) : ℚ) := by exact_mod_cast hdn
        _ ≤ _ := hday
    have hfitq : (Δ : ℚ) + (d : ℚ) ≤ (CHUNKc : ℚ) := by
      calc (Δ : ℚ) + (d : ℚ) = ((Δ + d : ℕ) : ℚ) := by push_cast; ring
        _ ≤ ((Δ + (d :: ds2).sum : ℕ) : ℚ) := by exact_mod_cast hdn
        _ ≤ ((CHUNKc : ℕ) : ℚ) := by exact_mod_cast hfit
    -- branch facts of the loop body, stated for the current state
    have hshape : (List.replicate S (segRow SPSc i0 d)).length =
        (List.replicate S (done ++
          List.replicate (SPSc * CHUNKc - SPSc * Δ) (none : Tag))).length := by
      rw [List.length_replicate, List.length_replicate]
    have hskip : ¬ ((ts0 + (Δ : ℚ)) ≤
        (pyInt (ts0 + ((SPSc * Δ : ℕ) : ℚ) / (SPSc : ℚ) - (d : ℚ)) : ℚ)) := by
      push_neg
      have hx : ts0 + ((SPSc * Δ : ℕ) : ℚ) / (SPSc : ℚ) - (d : ℚ) =
          (ts0 + (Δ : ℚ)) - (d : ℚ) := by rw [hdiv]
      rw [hx]
      exact pyInt_sub_lt (ts0 + (Δ : ℚ)) (d : ℚ) (by exact_mod_cast hd1)
    have hstart : roundHE (ts0 + ((SPSc * Δ : ℕ) : ℚ) / (SPSc : ℚ) -
        (ts0 + (Δ : ℚ))) < 1 := by
      have hx : ts0 + ((SPSc * Δ : ℕ) : ℚ) / (SPSc : ℚ) -
          (ts0 + (Δ : ℚ)) = 0 := by rw [hdiv]; ring
      rw [hx, roundHE_zero]
      norm_num
    have hwdata : width (List.replicate S (segRow SPSc i0 d)) = SPSc * d := by
      rw [width_replicate S (by omega), segRow_length]
    have hwq : ((SPSc * d : ℕ) : ℚ) / (SPSc : ℚ) = (d : ℚ) := by
      push_cast
      exact mul_div_cancel_left₀ _ hQ
    have hdayc : ¬ ((roundHE (((midSecs ts0 : ℤ) : ℚ) -
        ((SPSc * Δ : ℕ) : ℚ) / (SPSc : ℚ)) : ℚ) <
        (width (List.replicate S (segRow SPSc i0 d)) : ℚ) / (SPSc : ℚ)) := by
      push_neg
      rw [hwdata, hwq, hdiv]
      have hx : ((midSecs ts0 : ℤ) : ℚ) - (Δ : ℚ) =
          ((midSecs ts0 - (Δ : ℤ) : ℤ) : ℚ) := by push_cast; ring
      rw [hx, roundHE_intCast]
      push_cast
      linarith [hdayq]
    have hchunkc : ¬ ((CHUNKc : ℚ) - ((SPSc * Δ : ℕ) : ℚ) / (SPSc : ℚ) <
        (width (List.replicate S (segRow SPSc i0 d)) : ℚ) / (SPSc : ℚ)) := by
      push_neg
      rw [hwdata, hwq, hdiv]
      linarith [hfitq]
    have hcons : timeInconsistency SPSc ts0 (SPSc * Δ) (ts0 + (Δ : ℚ)) 0 =
        false := by
      unfold timeInconsistency
      have hx : ts0 + ((SPSc * Δ : ℕ) : ℚ) / (SPSc : ℚ) -
          ((ts0 + (Δ : ℚ)) + ((0 : ℤ) : ℚ) / (SPSc : ℚ)) = 0 := by
        rw [hdiv]; push_cast; ring
      rw [hx]
      unfold roundTo1
      rw [mul_zero, roundHE_zero]
      norm_num
    have hslice : sliceCols 0 (width (List.replicate S (segRow SPSc i0 d)))
        (List.replicate S (segRow SPSc i0 d)) =
        List.replicate S (segRow SPSc i0 d) := by
      refine sliceCols_zero_full _ _ (fun r hr => ?_)
      rw [List.eq_of_mem_replicate hr, segRow_length, hwdata]
    have hrow : (List.replicate S (done ++
          List.replicate (SPSc * CHUNKc - SPSc * Δ) (none : Tag))).take 0 =
        (List.replicate S (done ++
          List.replicate (SPSc * CHUNKc - SPSc * Δ) (none : Tag))).take 0 :=
      rfl
    rcases ds2 with _ | ⟨d2, rest2⟩
    · -- last packet: the loop appends it and stops
      have hget : getNextPacketData SPSc
          ⟨ts0 + (Δ : ℚ), (d : ℚ), List.replicate S (segRow SPSc i0 d)⟩
          ([] : List (Pkt Tag)) =
          (⟨ts0 + (Δ : ℚ), (d : ℚ), List.replicate S (segRow SPSc i0 d)⟩,
            true) := rfl
      have hstep := fillLoop_interior_append SPSc CHUNKc f1
        (⟨List.replicate S (done ++
            List.replicate (SPSc * CHUNKc - SPSc * Δ) (none : Tag)),
          SPSc * Δ, ts0, none, false, ((midSecs ts0 : ℤ) : ℚ), pT, pO⟩ :
            EngState Tag)
        (⟨List.replicate S (done ++
            List.replicate (SPSc * CHUNKc - SPSc * Δ) (none : Tag)),
          SPSc * Δ, ts0, none, false, ((midSecs ts0 : ℤ) : ℚ), pT, pO⟩ :
            EngState Tag)
        ⟨ts0 + (Δ : ℚ), (d : ℚ), List.replicate S (segRow SPSc i0 d)⟩
        ⟨ts0 + (Δ : ℚ), (d : ℚ), List.replicate S (segRow SPSc i0 d)⟩
        [] true hget hshape hskip (by simp) hstart hdayc hchunkc hcons
      rw [if_pos rfl] at hstep
      rw [show tagPkts S SPSc (ts0 + (Δ : ℚ)) i0 [d] =
        [⟨ts0 + (Δ : ℚ), (d : ℚ), List.replicate S (segRow SPSc i0 d)⟩]
        from rfl]
      rw [hstep, hslice, hwdata, assignCols_replicate]
      rw [invRow_step (SPSc * Δ) (SPSc * CHUNKc) done (segRow SPSc i0 d)
        hdone]
      rw [segRow_length]
      have e1 : done ++ segRow SPSc i0 d = done ++ doneRow SPSc i0 [d] := by
        simp [doneRow]
      have e2 : SPSc * Δ + SPSc * d = SPSc * (Δ + [d].sum) := by
        simp [Nat.mul_add]
      rw [e1, e2]
    · -- at least one packet follows: append and recurse
      have hget := getNext_abutting S SPSc (ts0 + (Δ : ℚ)) i0 d
        ⟨ts0 + (Δ : ℚ) + (d : ℚ), (d2 : ℚ),
          List.replicate S (segRow SPSc (i0 + 1) d2)⟩
        (tagPkts S SPSc (ts0 + (Δ : ℚ) + (d : ℚ) + (d2 : ℚ)) (i0 + 2) rest2)
        rfl
      have hstep := fillLoop_interior_append SPSc CHUNKc f1
        (⟨List.replicate S (done ++
            List.replicate (SPSc * CHUNKc - SPSc * Δ) (none : Tag)),
          SPSc * Δ, ts0, none, false, ((midSecs ts0 : ℤ) : ℚ), pT, pO⟩ :
            EngState Tag)
        (⟨List.replicate S (done ++
            List.replicate (SPSc * CHUNKc - SPSc * Δ) (none : Tag)),
          SPSc * Δ, ts0, none, false, ((midSecs ts0 : ℤ) : ℚ), pT, pO⟩ :
            EngState Tag)
        ⟨ts0 + (Δ : ℚ), (d : ℚ), List.replicate S (segRow SPSc i0 d)⟩
        ⟨ts0 + (Δ : ℚ), (d : ℚ), List.replicate S (segRow SPSc i0 d)⟩
        (⟨ts0 + (Δ : ℚ) + (d : ℚ), (d2 : ℚ),
            List.replicate S (segRow SPSc (i0 + 1) d2)⟩ ::
          tagPkts S SPSc (ts0 + (Δ : ℚ) + (d : ℚ) + (d2 : ℚ)) (i0 + 2) rest2)
        false hget hshape hskip (by simp) hstart hdayc hchunkc hcons
      rw [if_neg (by simp)] at hstep
      have ih := fillLoop_abutting SPSc CHUNKc S hsps hS ts0 pT pO
        (d2 :: rest2) f1 (i0 + 1) (Δ + d) (done ++ segRow SPSc i0 d)
        (by simp)
        (fun x hx => hpos x (by simp [hx]))
        (by rw [List.length_append, hdone, segRow_length, Nat.mul_add])
        (by
          have hsum : (Δ + d) + (d2 :: rest2).sum =
              Δ + (d :: d2 :: rest2).sum := by
            simp only [List.sum_cons]
            omega
          rw [hsum]
          exact hfit)
        (by
          have hsum : (Δ + d) + (d2 :: rest2).sum =
              Δ + (d :: d2 :: rest2).sum := by
            simp only [List.sum_cons]
            omega
          rw [hsum]
          exact hday)
        (by simp only [List.length_cons] at hf ⊢; omega)
      rw [show tagPkts S SPSc (ts0 + (Δ : ℚ)) i0 (d :: d2 :: rest2) =
        ⟨ts0 + (Δ : ℚ), (d : ℚ), List.replicate S (segRow SPSc i0 d)⟩ ::
          ⟨ts0 + (Δ : ℚ) + (d : ℚ), (d2 : ℚ),
            List.replicate S (segRow SPSc (i0 + 1) d2)⟩ ::
          tagPkts S SPSc (ts0 + (Δ : ℚ) + (d : ℚ) + (d2 : ℚ)) (i0 + 2) rest2
        from rfl]
      rw [hstep, hslice, hwdata, assignCols_replicate]
      rw [invRow_step (SPSc * Δ) (SPSc * CHUNKc) done (segRow SPSc i0 d)
        hdone]
      rw [segRow_length]
      have hts : ts0 + (Δ : ℚ) + (d : ℚ) = ts0 + (((Δ + d : ℕ) : ℕ) : ℚ) := by
        push_cast; ring
      rw [show SPSc * Δ + SPSc * d = SPSc * (Δ + d) from (Nat.mul_add _ _ _).symm]
      rw [show (⟨ts0 + (Δ : ℚ) + (d : ℚ), (d2 : ℚ),
            List.replicate S (segRow SPSc (i0 + 1) d2)⟩ ::
          tagPkts S SPSc (ts0 + (Δ : ℚ) + (d : ℚ) + (d2 : ℚ)) (i0 + 2) rest2 :
            List (Pkt Tag)) =
        tagPkts S SPSc (ts0 + (Δ : ℚ) + (d : ℚ)) (i0 + 1) (d2 :: rest2)
        from rfl]
      rw [show tagPkts S SPSc (ts0 + (Δ : ℚ) + (d : ℚ)) (i0 + 1)
          (d2 :: rest2) =
        tagPkts S SPSc (ts0 + ((Δ + d : ℕ) : ℚ)) (i0 + 1) (d2 :: rest2) by
        rw [← hts]]
      rw [ih]
      have e1 : (done ++ segRow SPSc i0 d) ++ doneRow SPSc (i0 + 1)
          (d2 :: rest2) = done ++ doneRow SPSc i0 (d :: d2 :: rest2) := by
        rw [List.append_assoc]
        rfl
      have e2 : (Δ + d) + (d2 :: rest2).sum = Δ + (d :: d2 :: rest2).sum := by
        simp
        omega
      rw [e1, e2]

theorem sum_take_get? : ∀ (ds : List ℕ) (k d : ℕ), ds.get? k = some d →
    (ds.take k).sum + d ≤ ds.sum
  | [], k, d, h => by simp at h
  | d0 :: ds, 0, d, h => by
    simp only [List.get?_cons_zero, Option.some.injEq] at h
    rcases h with rfl
    simp
  | d0 :: ds, k + 1, d, h => by
    simp only [List.get?_cons_succ] at h
    have := sum_take_get? ds k d h
    simp only [List.take_succ_cons, List.sum_cons]
    omega

theorem dropCols_replicate (e S : ℕ) (r : List α) :
    dropCols e (List.replicate S r) = List.replicate S (r.drop e) := by
  simp [dropCols, List.map_replicate]

theorem sliceCols_zero_replicate (e S : ℕ) (r : List α) :
    sliceCols 0 e (List.replicate S r) = List.replicate S (r.take e) := by
  simp [sliceCols, List.map_replicate]

/-- get? into a take: a hit implies the index is below the cut and the
underlying list agrees. -/
theorem get?_take_some (l : List α) (e i : ℕ) (v : α)
    (h : (l.take e).get? i = some v) : i < e ∧ l.get? i = some v := by
  obtain ⟨hlt, _⟩ := List.get?_eq_some.1 h
  rw [List.length_take] at hlt
  have hie : i < e := lt_of_lt_of_le hlt (min_le_left _ _)
  exact ⟨hie, by rwa [List.get?_take hie] at h⟩

/-- Inverse indexing into a single packet segment: any hit is the tag of
that very column. -/
theorem segRow_get?_inv (SPSc i d j : ℕ) (v : Tag)
    (h : (segRow SPSc i d).get? j = some v) :
    j < SPSc * d ∧ v = some (i, j) := by
  obtain ⟨hlt, _⟩ := List.get?_eq_some.1 h
  rw [segRow_length] at hlt
  refine ⟨hlt, ?_⟩
  rw [segRow_get? SPSc i d j hlt] at h
  exact (Option.some.inj h).symm

theorem frac_add_nat (t : ℚ) (n : ℕ) :
    (t + (n : ℚ)) - ⌊t + (n : ℚ)⌋ = t - ⌊t⌋ := by
  rw [Int.floor_add_nat]
  push_cast
  ring

/-- Opening a new chunk with a pending carry (lines 532-547): chunk_time
becomes previous_chunk_time + previous_cursor / SPS, the carry matrix is
written at column 0 with the cursor moved past it, and when the incoming
packet's sub-second fraction agrees with the candidate's the drift
correction is the identity, leaving the whole-second distance to the next
midnight as chunk_to_next_day. -/
theorem openNewChunk_with_carry (SPSc : ℕ) (ts : ℚ) (st : EngState α)
    (c : Mat α) (hc : st.carry = some c)
    (hfrac : ts - ⌊ts⌋ =
      st.prevTime + (st.prevOffset : ℚ) / (SPSc : ℚ) -
        ⌊st.prevTime + (st.prevOffset : ℚ) / (SPSc : ℚ)⌋) :
    openNewChunk SPSc ts st =
      { st with
          chunkTime := st.prevTime + (st.prevOffset : ℚ) / (SPSc : ℚ),
          chunkData := assignCols 0 c st.chunkData,
          offset := width c,
          carry := none,
          newChunk := false,
          chunkToNextDay :=
            ((midSecs (st.prevTime + (st.prevOffset : ℚ) / (SPSc : ℚ)) :
              ℤ) : ℚ) } := by
  simp only [openNewChunk, hc]
  have hct : (⌊st.prevTime + (st.prevOffset : ℚ) / (SPSc : ℚ)⌋ : ℚ) +
      (ts - ⌊ts⌋) = st.prevTime + (st.prevOffset : ℚ) / (SPSc : ℚ) := by
    rw [hfrac]; ring
  rw [hct]
  have hmid : nextMidnight (st.prevTime + (st.prevOffset : ℚ) / (SPSc : ℚ)) +
      ((st.prevTime + (st.prevOffset : ℚ) / (SPSc : ℚ)) -
        ⌊st.prevTime + (st.prevOffset : ℚ) / (SPSc : ℚ)⌋) -
      (st.prevTime + (st.prevOffset : ℚ) / (SPSc : ℚ)) =
      ((midSecs (st.prevTime + (st.prevOffset : ℚ) / (SPSc : ℚ)) : ℤ) :
        ℚ) := by
    unfold nextMidnight midSecs
    push_cast
    ring
  rw [hmid, roundHE_intCast]

/-- An iteration whose (already truncated) packet triggers the
chunk-boundary split (the day check not firing): the first e columns fill
the chunk to its end, the rest becomes the carry, and the loop stops. -/
theorem fillLoop_chunk_split (SPSc CHUNKc : ℕ) (fuel : ℕ)
    (st0 st : EngState α) (p p2 : Pkt α) (rest : List (Pkt α)) (stop0 : Bool)
    (e : ℕ)
    (hget : getNextPacketData SPSc p rest = (p2, stop0))
    (hshape : p2.data.length = st0.chunkData.length)
    (hskip : ¬ (p2.ts ≤
      (pyInt (st0.chunkTime + (st0.offset : ℚ) / (SPSc : ℚ) - p2.dur) : ℚ)))
    (hst : (if st0.newChunk then openNewChunk SPSc p2.ts st0 else st0) = st)
    (hstart : roundHE (st.chunkTime + (st.offset : ℚ) / (SPSc : ℚ) - p2.ts) < 1)
    (hday : ¬ ((roundHE (st.chunkToNextDay -
        (st.offset : ℚ) / (SPSc : ℚ)) : ℚ) <
      (width p2.data : ℚ) / (SPSc : ℚ)))
    (hchunk : (CHUNKc : ℚ) - (st0.offset : ℚ) / (SPSc : ℚ) <
      (width p2.data : ℚ) / (SPSc : ℚ))
    (hend : (e : ℤ) = pyInt ((SPSc : ℚ) *
      ((CHUNKc : ℚ) - (st0.offset : ℚ) / (SPSc : ℚ))))
    (hcons : timeInconsistency SPSc st.chunkTime st.offset p2.ts 0 = false) :
    fillLoop SPSc CHUNKc (fuel + 1) st0 (p :: rest) =
      .ok ({ st with
          carry := some (dropCols e p2.data),
          chunkData := assignCols st.offset (sliceCols 0 e p2.data)
            st.chunkData,
          offset := st.offset + e }, rest, .chunkStop) := by
  rw [fillLoop, hget]
  simp only [if_neg (by simp [hshape] : ¬ (p2.data.length ≠ st0.chunkData.length)),
    if_neg hskip, hst, if_neg (not_le.2 hstart), if_neg hday, if_pos hchunk,
    ← hend, hcons, Bool.false_eq_true, if_false, Int.toNat_natCast,
    Int.toNat_zero, if_pos (Or.inr hchunk), decide_eq_false hday,
    decide_eq_true hchunk, Bool.or_false, Bool.or_true, if_true]
  have hoff : ((st.offset : ℤ) + ((e : ℤ) - 0)).toNat = st.offset + e := by
    omega
  rw [hoff]

/-- The fill loop on abutting whole-second packets whose prefix fits the
open chunk while the next packet straddles the chunk end: the prefix is
appended in order, the straddling packet is split at the chunk boundary
(its first columns fill the chunk exactly, the rest becomes the carry),
and the loop stops with the remaining packets untouched. -/
theorem fillLoop_abutting_split (SPSc CHUNKc S : ℕ) (hsps : 0 < SPSc)
    (hS : 0 < S) (ts0 : ℚ) (pT : ℚ) (pO : ℕ) (dm : ℕ) (hdm : 1 ≤ dm) :
    ∀ (ds1 : List ℕ) (f i0 Δ : ℕ) (done : List Tag) (rest2 : List ℕ),
      (∀ d ∈ ds1, 1 ≤ d) →
      done.length = SPSc * Δ →
      Δ + ds1.sum ≤ CHUNKc →
      CHUNKc < Δ + ds1.sum + dm →
      ((Δ + ds1.sum + dm : ℕ) : ℚ) ≤ ((midSecs ts0 : ℤ) : ℚ) →
      ds1.length + 1 ≤ f →
      fillLoop SPSc CHUNKc f
        (⟨List.replicate S (done ++
            List.replicate (SPSc * CHUNKc - SPSc * Δ) (none : Tag)),
          SPSc * Δ, ts0, none, false, ((midSecs ts0 : ℤ) : ℚ), pT, pO⟩ :
            EngState Tag)
        (tagPkts S SPSc (ts0 + (Δ : ℚ)) i0 (ds1 ++ dm :: rest2)) =
      .ok (⟨List.replicate S ((done ++ doneRow SPSc i0 ds1) ++
            (segRow SPSc (i0 + ds1.length) dm).take
              (SPSc * CHUNKc - SPSc * (Δ + ds1.sum))),
          SPSc * CHUNKc, ts0,
          some (List.replicate S ((segRow SPSc (i0 + ds1.length) dm).drop
            (SPSc * CHUNKc - SPSc * (Δ + ds1.sum)))),
          false, ((midSecs ts0 : ℤ) : ℚ), pT, pO⟩,
        tagPkts S SPSc (ts0 + (Δ : ℚ) + ((ds1.sum + dm : ℕ) : ℚ))
          (i0 + ds1.length + 1) rest2,
        .chunkStop)
  | [], f, i0, Δ, done, rest2, _, hdone, hfit, hstrad, hday, hf => by
    obtain ⟨f1, rfl⟩ : ∃ f1, f = f1 + 1 := ⟨f - 1, by omega⟩
    simp only [List.nil_append, List.sum_nil, Nat.add_zero, Nat.zero_add,
      List.length_nil, doneRow, List.append_nil]
    simp only [List.sum_nil, Nat.add_zero] at hfit hstrad hday
    have hQ : (SPSc : ℚ) ≠ 0 := by positivity
    have hdiv : ((SPSc * Δ : ℕ) : ℚ) / (SPSc : ℚ) = (Δ : ℚ) := by
      push_cast
      exact mul_div_cancel_left₀ _ hQ
    have hwdata : width (List.replicate S (segRow SPSc i0 dm)) =
        SPSc * dm := by
      rw [width_replicate S (by omega), segRow_length]
    have hwq : ((SPSc * dm : ℕ) : ℚ) / (SPSc : ℚ) = (dm : ℚ) := by
      push_cast
      exact mul_div_cancel_left₀ _ hQ
    have hA : SPSc * Δ ≤ SPSc * CHUNKc := Nat.mul_le_mul_left SPSc hfit
    have hAB : SPSc * CHUNKc < SPSc * Δ + SPSc * dm := by
      have h1 : SPSc * CHUNKc < SPSc * (Δ + dm) :=
        (Nat.mul_lt_mul_left hsps).2 hstrad
      rwa [Nat.mul_add] at h1
    have hmin : min (SPSc * CHUNKc - SPSc * Δ) (SPSc * dm) =
        SPSc * CHUNKc - SPSc * Δ := min_eq_left (by omega)
    have hshape : (List.replicate S (segRow SPSc i0 dm)).length =
        (List.replicate S (done ++
          List.replicate (SPSc * CHUNKc - SPSc * Δ) (none : Tag))).length := by
      rw [List.length_replicate, List.length_replicate]
    have hskip : ¬ ((ts0 + (Δ : ℚ)) ≤
        (pyInt (ts0 + ((SPSc * Δ : ℕ) : ℚ) / (SPSc : ℚ) - (dm : ℚ)) : ℚ)) := by
      push_neg
      have hx : ts0 + ((SPSc * Δ : ℕ) : ℚ) / (SPSc : ℚ) - (dm : ℚ) =
          (ts0 + (Δ : ℚ)) - (dm : ℚ) := by rw [hdiv]
      rw [hx]
      exact pyInt_sub_lt (ts0 + (Δ : ℚ)) (dm : ℚ) (by exact_mod_cast hdm)
    have hstart : roundHE (ts0 + ((SPSc * Δ : ℕ) : ℚ) / (SPSc : ℚ) -
        (ts0 + (Δ : ℚ))) < 1 := by
      have hx : ts0 + ((SPSc * Δ : ℕ) : ℚ) / (SPSc : ℚ) -
          (ts0 + (Δ : ℚ)) = 0 := by rw [hdiv]; ring
      rw [hx, roundHE_zero]
      norm_num
    have hdayq : (Δ : ℚ) + (dm : ℚ) ≤ ((midSecs ts0 : ℤ) : ℚ) := by
      have h1 := hday
      push_cast at h1
      linarith
    have hdayc : ¬ ((roundHE (((midSecs ts0 : ℤ) : ℚ) -
        ((SPSc * Δ : ℕ) : ℚ) / (SPSc : ℚ)) : ℚ) <
        (width (List.replicate S (segRow SPSc i0 dm)) : ℚ) / (SPSc : ℚ)) := by
      push_neg
      rw [hwdata, hwq, hdiv]
      have hx : ((midSecs ts0 : ℤ) : ℚ) - (Δ : ℚ) =
          ((midSecs ts0 - (Δ : ℤ) : ℤ) : ℚ) := by push_cast; ring
      rw [hx, roundHE_intCast]
      push_cast
      linarith
    have hchunkc : (CHUNKc : ℚ) - ((SPSc * Δ : ℕ) : ℚ) / (SPSc : ℚ) <
        (width (List.replicate S (segRow SPSc i0 dm)) : ℚ) / (SPSc : ℚ) := by
      rw [hwdata, hwq, hdiv]
      have hx : (CHUNKc : ℚ) < (Δ : ℚ) + (dm : ℚ) := by exact_mod_cast hstrad
      linarith
    have hend : ((SPSc * CHUNKc - SPSc * Δ : ℕ) : ℤ) =
        pyInt ((SPSc : ℚ) *
          ((CHUNKc : ℚ) - ((SPSc * Δ : ℕ) : ℚ) / (SPSc : ℚ))) := by
      rw [hdiv]
      have h1 : ((SPSc * CHUNKc - SPSc * Δ : ℕ) : ℤ) =
          ((SPSc * CHUNKc : ℕ) : ℤ) - ((SPSc * Δ : ℕ) : ℤ) := by omega
      have hx : (SPSc : ℚ) * ((CHUNKc : ℚ) - (Δ : ℚ)) =
          (((SPSc * CHUNKc - SPSc * Δ : ℕ) : ℤ) : ℚ) := by
        rw [h1]
        push_cast
        ring
      rw [hx, pyInt_intCast]
    have hcons : timeInconsistency SPSc ts0 (SPSc * Δ) (ts0 + (Δ : ℚ)) 0 =
        false := by
      unfold timeInconsistency
      have hx : ts0 + ((SPSc * Δ : ℕ) : ℚ) / (SPSc : ℚ) -
          ((ts0 + (Δ : ℚ)) + ((0 : ℤ) : ℚ) / (SPSc : ℚ)) = 0 := by
        rw [hdiv]; push_cast; ring
      rw [hx]
      unfold roundTo1
      rw [mul_zero, roundHE_zero]
      norm_num
    have hget := getNext_abutting_any S SPSc (ts0 + (Δ : ℚ)) i0 dm rest2
    have hstep := fillLoop_chunk_split SPSc CHUNKc f1
      (⟨List.replicate S (done ++
          List.replicate (SPSc * CHUNKc - SPSc * Δ) (none : Tag)),
        SPSc * Δ, ts0, none, false, ((midSecs ts0 : ℤ) : ℚ), pT, pO⟩ :
          EngState Tag)
      (⟨List.replicate S (done ++
          List.replicate (SPSc * CHUNKc - SPSc * Δ) (none : Tag)),
        SPSc * Δ, ts0, none, false, ((midSecs ts0 : ℤ) : ℚ), pT, pO⟩ :
          EngState Tag)
      ⟨ts0 + (Δ : ℚ), (dm : ℚ), List.replicate S (segRow SPSc i0 dm)⟩
      ⟨ts0 + (Δ : ℚ), (dm : ℚ), List.replicate S (segRow SPSc i0 dm)⟩
      (tagPkts S SPSc (ts0 + (Δ : ℚ) + (dm : ℚ)) (i0 + 1) rest2)
      rest2.isEmpty (SPSc * CHUNKc - SPSc * Δ)
      hget hshape hskip (by simp) hstart hdayc hchunkc hend hcons
    rw [show tagPkts S SPSc (ts0 + (Δ : ℚ)) i0 (dm :: rest2) =
      ⟨ts0 + (Δ : ℚ), (dm : ℚ), List.replicate S (segRow SPSc i0 dm)⟩ ::
        tagPkts S SPSc (ts0 + (Δ : ℚ) + (dm : ℚ)) (i0 + 1) rest2 from rfl]
    rw [hstep, dropCols_replicate, sliceCols_zero_replicate,
      assignCols_replicate]
    rw [invRow_step (SPSc * Δ) (SPSc * CHUNKc) done
      ((segRow SPSc i0 dm).take (SPSc * CHUNKc - SPSc * Δ)) hdone]
    rw [List.length_take, segRow_length, hmin]
    rw [show SPSc * CHUNKc - (SPSc * Δ + (SPSc * CHUNKc - SPSc * Δ)) = 0
      from by omega]
    rw [List.replicate_zero, List.append_nil]
    rw [show SPSc * Δ + (SPSc * CHUNKc - SPSc * Δ) = SPSc * CHUNKc
      from by omega]
  | d :: ds1p, f, i0, Δ, done, rest2, hpos1, hdone, hfit, hstrad, hday,
      hf => by
    obtain ⟨f1, rfl⟩ : ∃ f1, f = f1 + 1 :=
      ⟨f - 1, by simp only [List.length_cons] at hf; omega⟩
    have hQ : (SPSc : ℚ) ≠ 0 := by positivity
    have hdiv : ((SPSc * Δ : ℕ) : ℚ) / (SPSc : ℚ) = (Δ : ℚ) := by
      push_cast
      exact mul_div_cancel_left₀ _ hQ
    have hd1 : 1 ≤ d := hpos1 d (by simp)
    have hdn : Δ + d ≤ Δ + (d :: ds1p).sum := by
      simp only [List.sum_cons]
      omega
    have hdayq : (Δ : ℚ) + (d : ℚ) ≤ ((midSecs ts0 : ℤ) : ℚ) := by
      calc (Δ : ℚ) + (d : ℚ) = ((Δ + d : ℕ) : ℚ) := by push_cast; ring
        _ ≤ ((Δ + (d :: ds1p).sum + dm : ℕ) : ℚ) := by
            exact_mod_cast le_trans hdn (Nat.le_add_right _ _)
        _ ≤ _ := hday
    have hfitq : (Δ : ℚ) + (d : ℚ) ≤ (CHUNKc : ℚ) := by
      calc (Δ : ℚ) + (d : ℚ) = ((Δ + d : ℕ) : ℚ) := by push_cast; ring
        _ ≤ ((Δ + (d :: ds1p).sum : ℕ) : ℚ) := by exact_mod_cast hdn
        _ ≤ ((CHUNKc : ℕ) : ℚ) := by exact_mod_cast hfit
    have hshape : (List.replicate S (segRow SPSc i0 d)).length =
        (List.replicate S (done ++
          List.replicate (SPSc * CHUNKc - SPSc * Δ) (none : Tag))).length := by
      rw [List.length_replicate, List.length_replicate]
    have hskip : ¬ ((ts0 + (Δ : ℚ)) ≤
        (pyInt (ts0 + ((SPSc * Δ : ℕ) : ℚ) / (SPSc : ℚ) - (d : ℚ)) : ℚ)) := by
      push_neg
      have hx : ts0 + ((SPSc * Δ : ℕ) : ℚ) / (SPSc : ℚ) - (d : ℚ) =
          (ts0 + (Δ : ℚ)) - (d : ℚ) := by rw [hdiv]
      rw [hx]
      exact pyInt_sub_lt (ts0 + (Δ : ℚ)) (d : ℚ) (by exact_mod_cast hd1)
    have hstart : roundHE (ts0 + ((SPSc * Δ : ℕ) : ℚ) / (SPSc : ℚ) -
        (ts0 + (Δ : ℚ))) < 1 := by
      have hx : ts0 + ((SPSc * Δ : ℕ) : ℚ) / (SPSc : ℚ) -
          (ts0 + (Δ : ℚ)) = 0 := by rw [hdiv]; ring
      rw [hx, roundHE_zero]
      norm_num
    have hwdata : width (List.replicate S (segRow SPSc i0 d)) = SPSc * d := by
      rw [width_replicate S (by omega), segRow_length]
    have hwq : ((SPSc * d : ℕ) : ℚ) / (SPSc : ℚ) = (d : ℚ) := by
      push_cast
      exact mul_div_cancel_left₀ _ hQ
    have hdayc : ¬ ((roundHE (((midSecs ts0 : ℤ) : ℚ) -
        ((SPSc * Δ : ℕ) : ℚ) / (SPSc : ℚ)) : ℚ) <
        (width (List.replicate S (segRow SPSc i0 d)) : ℚ) / (SPSc : ℚ)) := by
      push_neg
      rw [hwdata, hwq, hdiv]
      have hx : ((midSecs ts0 : ℤ) : ℚ) - (Δ : ℚ) =
          ((midSecs ts0 - (Δ : ℤ) : ℤ) : ℚ) := by push_cast; ring
      rw [hx, roundHE_intCast]
      push_cast
      linarith [hdayq]
    have hchunkc : ¬ ((CHUNKc : ℚ) - ((SPSc * Δ : ℕ) : ℚ) / (SPSc : ℚ) <
        (width (List.replicate S (segRow SPSc i0 d)) : ℚ) / (SPSc : ℚ)) := by
      push_neg
      rw [hwdata, hwq, hdiv]
      linarith [hfitq]
    have hcons : timeInconsistency SPSc ts0 (SPSc * Δ) (ts0 + (Δ : ℚ)) 0 =
        false := by
      unfold timeInconsistency
      have hx : ts0 + ((SPSc * Δ : ℕ) : ℚ) / (SPSc : ℚ) -
          ((ts0 + (Δ : ℚ)) + ((0 : ℤ) : ℚ) / (SPSc : ℚ)) = 0 := by
        rw [hdiv]; push_cast; ring
      rw [hx]
      unfold roundTo1
      rw [mul_zero, roundHE_zero]
      norm_num
    have hslice : sliceCols 0 (width (List.replicate S (segRow SPSc i0 d)))
        (List.replicate S (segRow SPSc i0 d)) =
        List.replicate S (segRow SPSc i0 d) := by
      refine sliceCols_zero_full _ _ (fun r hr => ?_)
      rw [List.eq_of_mem_replicate hr, segRow_length, hwdata]
    have hget := getNext_abutting_any S SPSc (ts0 + (Δ : ℚ)) i0 d
      (ds1p ++ dm :: rest2)
    have hstop : ((ds1p ++ dm :: rest2).isEmpty = true) = False := by
      simp
    have hstep := fillLoop_interior_append SPSc CHUNKc f1
      (⟨List.replicate S (done ++
          List.replicate (SPSc * CHUNKc - SPSc * Δ) (none : Tag)),
        SPSc * Δ, ts0, none, false, ((midSecs ts0 : ℤ) : ℚ), pT, pO⟩ :
          EngState Tag)
      (⟨List.replicate S (done ++
          List.replicate (SPSc * CHUNKc - SPSc * Δ) (none : Tag)),
        SPSc * Δ, ts0, none, false, ((midSecs ts0 : ℤ) : ℚ), pT, pO⟩ :
          EngState Tag)
      ⟨ts0 + (Δ : ℚ), (d : ℚ), List.replicate S (segRow SPSc i0 d)⟩
      ⟨ts0 + (Δ : ℚ), (d : ℚ), List.replicate S (segRow SPSc i0 d)⟩
      (tagPkts S SPSc (ts0 + (Δ : ℚ) + (d : ℚ)) (i0 + 1)
        (ds1p ++ dm :: rest2))
      (ds1p ++ dm :: rest2).isEmpty
      hget hshape hskip (by simp) hstart hdayc hchunkc hcons
    rw [if_neg (by simp)] at hstep
    have ih := fillLoop_abutting_split SPSc CHUNKc S hsps hS ts0 pT pO dm hdm
      ds1p f1 (i0 + 1) (Δ + d) (done ++ segRow SPSc i0 d) rest2
      (fun x hx => hpos1 x (by simp [hx]))
      (by rw [List.length_append, hdone, segRow_length, Nat.mul_add])
      (by
        have hsum : (Δ + d) + ds1p.sum = Δ + (d :: ds1p).sum := by
          simp only [List.sum_cons]
          omega
        rw [hsum]
        exact hfit)
      (by
        have hsum : (Δ + d) + ds1p.sum + dm = Δ + (d :: ds1p).sum + dm := by
          simp only [List.sum_cons]
          omega
        rw [hsum]
        exact hstrad)
      (by
        have hsum : (Δ + d) + ds1p.sum + dm = Δ + (d :: ds1p).sum + dm := by
          simp only [List.sum_cons]
          omega
        rw [hsum]
        exact hday)
      (by simp only [List.length_cons] at hf ⊢; omega)
    rw [show tagPkts S SPSc (ts0 + (Δ : ℚ)) i0 ((d :: ds1p) ++ dm :: rest2) =
      ⟨ts0 + (Δ : ℚ), (d : ℚ), List.replicate S (segRow SPSc i0 d)⟩ ::
        tagPkts S SPSc (ts0 + (Δ : ℚ) + (d : ℚ)) (i0 + 1)
          (ds1p ++ dm :: rest2) from rfl]
    rw [hstep, hslice, hwdata, assignCols_replicate]
    rw [invRow_step (SPSc * Δ) (SPSc * CHUNKc) done (segRow SPSc i0 d)
      hdone]
    rw [segRow_length]
    have hts : ts0 + (Δ : ℚ) + (d : ℚ) = ts0 + (((Δ + d : ℕ) : ℕ) : ℚ) := by
      push_cast; ring
    rw [show SPSc * Δ + SPSc * d = SPSc * (Δ + d) from (Nat.mul_add _ _ _).symm]
    rw [show tagPkts S SPSc (ts0 + (Δ : ℚ) + (d : ℚ)) (i0 + 1)
        (ds1p ++ dm :: rest2) =
      tagPkts S SPSc (ts0 + ((Δ + d : ℕ) : ℚ)) (i0 + 1)
        (ds1p ++ dm :: rest2) by
      rw [← hts]]
    rw [ih]
    have e1 : (done ++ segRow SPSc i0 d) ++ doneRow SPSc (i0 + 1) ds1p =
        done ++ doneRow SPSc i0 (d :: ds1p) := by
      rw [List.append_assoc]
      rfl
    have e2 : (Δ + d) + ds1p.sum = Δ + (d :: ds1p).sum := by
      simp only [List.sum_cons]
      omega
    have e3 : (i0 + 1) + ds1p.length = i0 + (d :: ds1p).length := by
      simp only [List.length_cons]
      omega
    have e4 : ts0 + ((Δ + d : ℕ) : ℚ) + ((ds1p.sum + dm : ℕ) : ℚ) =
        ts0 + (Δ : ℚ) + (((d :: ds1p).sum + dm : ℕ) : ℚ) := by
      push_cast [List.sum_cons]
      ring
    rw [e1, e2, e3, e4]

/-- Sample placement across the two chunk rows produced by a boundary
split: chunk 1 holds columns [0, SPS * CHUNK) of the concatenated stream,
chunk 2 the following columns; every sample sits in exactly the row and
column selected by its global offset, and any tagged cell of either row
identifies its packet and global column uniquely. -/
theorem c1SplitProps (SPSc CHUNKc : ℕ) (ds1 : List ℕ) (dm : ℕ)
    (ds2p : List ℕ) (hsps : 0 < SPSc)
    (hfit1 : ds1.sum ≤ CHUNKc) (hstrad : CHUNKc < ds1.sum + dm) :
    (doneRow SPSc 0 ds1 ++ (segRow SPSc ds1.length dm).take
      (SPSc * CHUNKc - SPSc * ds1.sum)).length = SPSc * CHUNKc ∧
    ((segRow SPSc ds1.length dm).drop (SPSc * CHUNKc - SPSc * ds1.sum) ++
      doneRow SPSc (ds1.length + 1) ds2p).length =
      SPSc * (ds1.sum + dm - CHUNKc + ds2p.sum) ∧
    (∀ k d j, (ds1 ++ dm :: ds2p).get? k = some d → j < SPSc * d →
      (SPSc * ((ds1 ++ dm :: ds2p).take k).sum + j < SPSc * CHUNKc →
        (doneRow SPSc 0 ds1 ++ (segRow SPSc ds1.length dm).take
          (SPSc * CHUNKc - SPSc * ds1.sum)).get?
          (SPSc * ((ds1 ++ dm :: ds2p).take k).sum + j) =
          some (some (k, j))) ∧
      (SPSc * CHUNKc ≤ SPSc * ((ds1 ++ dm :: ds2p).take k).sum + j →
        ((segRow SPSc ds1.length dm).drop (SPSc * CHUNKc - SPSc * ds1.sum) ++
          doneRow SPSc (ds1.length + 1) ds2p).get?
          (SPSc * ((ds1 ++ dm :: ds2p).take k).sum + j - SPSc * CHUNKc) =
          some (some (k, j)))) ∧
    (∀ c t j,
      (doneRow SPSc 0 ds1 ++ (segRow SPSc ds1.length dm).take
        (SPSc * CHUNKc - SPSc * ds1.sum)).get? c = some (some (t, j)) →
      ∃ d, (ds1 ++ dm :: ds2p).get? t = some d ∧ j < SPSc * d ∧
        c = SPSc * ((ds1 ++ dm :: ds2p).take t).sum + j) ∧
    (∀ c t j,
      ((segRow SPSc ds1.length dm).drop (SPSc * CHUNKc - SPSc * ds1.sum) ++
        doneRow SPSc (ds1.length + 1) ds2p).get? c = some (some (t, j)) →
      ∃ d, (ds1 ++ dm :: ds2p).get? t = some d ∧ j < SPSc * d ∧
        c + SPSc * CHUNKc = SPSc * ((ds1 ++ dm :: ds2p).take t).sum + j) := by
  have hlen1 : (doneRow SPSc 0 ds1).length = SPSc * ds1.sum :=
    doneRow_length SPSc 0 ds1
  have hA : SPSc * ds1.sum ≤ SPSc * CHUNKc := Nat.mul_le_mul_left SPSc hfit1
  have hAB : SPSc * CHUNKc < SPSc * ds1.sum + SPSc * dm := by
    have h1 : SPSc * CHUNKc < SPSc * (ds1.sum + dm) :=
      (Nat.mul_lt_mul_left hsps).2 hstrad
    rwa [Nat.mul_add] at h1
  have hemin : min (SPSc * CHUNKc - SPSc * ds1.sum) (SPSc * dm) =
      SPSc * CHUNKc - SPSc * ds1.sum := min_eq_left (by omega)
  have hlenTake : ((segRow SPSc ds1.length dm).take
      (SPSc * CHUNKc - SPSc * ds1.sum)).length =
      SPSc * CHUNKc - SPSc * ds1.sum := by
    rw [List.length_take, segRow_length, hemin]
  have hlenDrop : ((segRow SPSc ds1.length dm).drop
      (SPSc * CHUNKc - SPSc * ds1.sum)).length =
      SPSc * dm - (SPSc * CHUNKc - SPSc * ds1.sum) := by
    rw [List.length_drop, segRow_length]
  have hmu : SPSc * ds1.sum + SPSc * dm =
      SPSc * CHUNKc + SPSc * (ds1.sum + dm - CHUNKc) := by
    have hu : ds1.sum + dm = CHUNKc + (ds1.sum + dm - CHUNKc) := by omega
    calc SPSc * ds1.sum + SPSc * dm = SPSc * (ds1.sum + dm) :=
          (Nat.mul_add SPSc ds1.sum dm).symm
      _ = SPSc * (CHUNKc + (ds1.sum + dm - CHUNKc)) := by rw [← hu]
      _ = SPSc * CHUNKc + SPSc * (ds1.sum + dm - CHUNKc) :=
          Nat.mul_add SPSc CHUNKc (ds1.sum + dm - CHUNKc)
  have hgetK : (ds1 ++ dm :: ds2p).get? ds1.length = some dm := by
    rw [List.get?_append_right le_rfl, Nat.sub_self, List.get?_cons_zero]
  have htakeK : (ds1 ++ dm :: ds2p).take ds1.length = ds1 :=
    List.take_left ds1 (dm :: ds2p)
  refine ⟨?_, ?_, ?_, ?_, ?_⟩
  · rw [List.length_append, hlen1, hlenTake]
    omega
  · rw [List.length_append, hlenDrop, doneRow_length, Nat.mul_add]
    omega
  · intro k d j hk hj
    by_cases hkK : k < ds1.length
    · have hk1 : ds1.get? k = some d := by
        rwa [List.get?_append hkK] at hk
      have htk : (ds1 ++ dm :: ds2p).take k = ds1.take k :=
        List.take_append_of_le_length (le_of_lt hkK)
      have hsum := sum_take_get? ds1 k d hk1
      have hCbound : SPSc * (ds1.take k).sum + j < SPSc * ds1.sum := by
        have h2 : SPSc * ((ds1.take k).sum + d) ≤ SPSc * ds1.sum :=
          Nat.mul_le_mul_left SPSc hsum
        rw [Nat.mul_add] at h2
        omega
      refine ⟨?_, ?_⟩
      · intro _
        rw [htk]
        rw [List.get?_append (by rw [hlen1]; exact hCbound)]
        have h3 := doneRow_get? SPSc ds1 0 k d j hk1 hj
        rwa [Nat.zero_add] at h3
      · intro hge
        rw [htk] at hge
        exfalso
        omega
    · by_cases hkK2 : k = ds1.length
      · subst hkK2
        have hdm_eq : d = dm := by
          rw [hgetK] at hk
          exact (Option.some.inj hk).symm
        subst hdm_eq
        refine ⟨?_, ?_⟩
        · intro hlt
          rw [htakeK] at hlt ⊢
          have hj_e : j < SPSc * CHUNKc - SPSc * ds1.sum := by omega
          rw [List.get?_append_right (by rw [hlen1]; omega), hlen1]
          rw [show SPSc * ds1.sum + j - SPSc * ds1.sum = j from by omega]
          rw [List.get?_take hj_e]
          exact segRow_get? SPSc ds1.length d j hj
        · intro hge
          rw [htakeK] at hge ⊢
          rw [show SPSc * ds1.sum + j - SPSc * CHUNKc =
            j - (SPSc * CHUNKc - SPSc * ds1.sum) from by omega]
          rw [List.get?_append (by rw [hlenDrop]; omega)]
          rw [List.get?_drop]
          rw [show (SPSc * CHUNKc - SPSc * ds1.sum) +
            (j - (SPSc * CHUNKc - SPSc * ds1.sum)) = j from by omega]
          exact segRow_get? SPSc ds1.length d j hj
      · have hKk : ds1.length < k := by omega
        obtain ⟨k2, rfl⟩ : ∃ k2, k = ds1.length + 1 + k2 :=
          ⟨k - ds1.length - 1, by omega⟩
        have hk2 : ds2p.get? k2 = some d := by
          rw [List.get?_append_right (by omega)] at hk
          rw [show ds1.length + 1 + k2 - ds1.length = k2 + 1 from by omega]
            at hk
          rwa [List.get?_cons_succ] at hk
        have htk : (ds1 ++ dm :: ds2p).take (ds1.length + 1 + k2) =
            ds1 ++ dm :: ds2p.take k2 := by
          rw [show ds1.length + 1 + k2 = ds1.length + (k2 + 1) from by omega]
          rw [List.take_append, List.take_succ_cons]
        have hsum3 : (ds1 ++ dm :: ds2p.take k2).sum =
            ds1.sum + (dm + (ds2p.take k2).sum) := by
          rw [List.sum_append, List.sum_cons]
        have hm1 : SPSc * (ds1.sum + (dm + (ds2p.take k2).sum)) =
            SPSc * ds1.sum + SPSc * dm + SPSc * (ds2p.take k2).sum := by
          ring
        refine ⟨?_, ?_⟩
        · intro hlt
          exfalso
          rw [htk, hsum3, hm1] at hlt
          omega
        · intro hge
          rw [htk, hsum3, hm1]
          rw [show SPSc * ds1.sum + SPSc * dm + SPSc * (ds2p.take k2).sum +
              j - SPSc * CHUNKc =
            (SPSc * dm - (SPSc * CHUNKc - SPSc * ds1.sum)) +
              (SPSc * (ds2p.take k2).sum + j) from by omega]
          rw [List.get?_append_right (by rw [hlenDrop]; omega), hlenDrop]
          rw [show (SPSc * dm - (SPSc * CHUNKc - SPSc * ds1.sum)) +
              (SPSc * (ds2p.take k2).sum + j) -
              (SPSc * dm - (SPSc * CHUNKc - SPSc * ds1.sum)) =
            SPSc * (ds2p.take k2).sum + j from by omega]
          exact doneRow_get? SPSc ds2p (ds1.length + 1) k2 d j hk2 hj
  · intro c t j hc
    by_cases hlt : c < SPSc * ds1.sum
    · rw [List.get?_append (by rw [hlen1]; exact hlt)] at hc
      obtain ⟨k, d, hkd, ht, hjd, hcol⟩ := doneRow_get?_inv SPSc ds1 0 c t j hc
      have hkK : k < ds1.length := by
        obtain ⟨hb, _⟩ := List.get?_eq_some.1 hkd
        exact hb
      have htk : t = k := by omega
      refine ⟨d, ?_, hjd, ?_⟩
      · rw [htk, List.get?_append hkK]
        exact hkd
      · rw [htk, List.take_append_of_le_length (le_of_lt hkK)]
        exact hcol
    · push_neg at hlt
      rw [List.get?_append_right (by rw [hlen1]; exact hlt), hlen1] at hc
      obtain ⟨hie, hc2⟩ := get?_take_some _ _ _ _ hc
      obtain ⟨hjb, hv⟩ := segRow_get?_inv SPSc ds1.length dm
        (c - SPSc * ds1.sum) _ hc2
      obtain ⟨ht, hj⟩ := Prod.mk.injEq .. ▸ Option.some.inj hv
      refine ⟨dm, ?_, ?_, ?_⟩
      · rw [ht]
        exact hgetK
      · rw [hj]
        exact hjb
      · rw [ht, htakeK, hj]
        omega
  · intro c t j hc
    by_cases hlt : c < SPSc * dm - (SPSc * CHUNKc - SPSc * ds1.sum)
    · rw [List.get?_append (by rw [hlenDrop]; exact hlt)] at hc
      rw [List.get?_drop] at hc
      obtain ⟨hjb, hv⟩ := segRow_get?_inv SPSc ds1.length dm _ _ hc
      obtain ⟨ht, hj⟩ := Prod.mk.injEq .. ▸ Option.some.inj hv
      refine ⟨dm, ?_, ?_, ?_⟩
      · rw [ht]
        exact hgetK
      · rw [hj]
        exact hjb
      · rw [ht, htakeK, hj]
        omega
    · push_neg at hlt
      rw [List.get?_append_right (by rw [hlenDrop]; exact hlt), hlenDrop]
        at hc
      obtain ⟨k, d, hkd, ht, hjd, hcol⟩ := doneRow_get?_inv SPSc ds2p
        (ds1.length + 1) _ t j hc
      refine ⟨d, ?_, hjd, ?_⟩
      · rw [ht]
        rw [List.get?_append_right (by omega)]
        rw [show ds1.length + 1 + k - ds1.length = k + 1 from by omega]
        rw [List.get?_cons_succ]
        exact hkd
      · rw [ht]
        have htk : (ds1 ++ dm :: ds2p).take (ds1.length + 1 + k) =
            ds1 ++ dm :: ds2p.take k := by
          rw [show ds1.length + 1 + k = ds1.length + (k + 1) from by omega]
          rw [List.take_append, List.take_succ_cons]
        rw [htk, List.sum_append, List.sum_cons]
        rw [show SPSc * (ds1.sum + (dm + (ds2p.take k).sum)) =
          SPSc * ds1.sum + SPSc * dm + SPSc * (ds2p.take k).sum from by ring]
        omega

/-- The fill loop right after a chunk save with a pending carry: the first
iteration re-opens a chunk at previous_chunk_time + previous_cursor / SPS,
writes the carry at column 0, appends the incoming abutting packets after
it, and stops at exhaustion with the next chunk partially filled. -/
theorem fillLoop_carry_resume (SPSc CHUNKc S : ℕ) (hsps : 0 < SPSc)
    (hS : 0 < S) (ts0 : ℚ) (hts0 : 0 < ts0) (stale1 : ℚ) (Δ2 : ℕ)
    (done0 : List Tag) (hdone0 : done0.length = SPSc * Δ2)
    (ds2 : List ℕ) (f : ℕ) (i0 : ℕ)
    (hpos : ∀ d ∈ ds2, 1 ≤ d) (hne : ds2 ≠ [])
    (hfit : Δ2 + ds2.sum ≤ CHUNKc)
    (hday : ((Δ2 + ds2.sum : ℕ) : ℚ) ≤
      ((midSecs (ts0 + (CHUNKc : ℚ)) : ℤ) : ℚ))
    (hf : ds2.length ≤ f) :
    fillLoop SPSc CHUNKc (f + 1)
      (⟨allocateEmpty S (SPSc * CHUNKc) (none : Tag), 0, ts0,
        some (List.replicate S done0), true, stale1, ts0,
        SPSc * CHUNKc⟩ : EngState Tag)
      (tagPkts S SPSc (ts0 + ((CHUNKc + Δ2 : ℕ) : ℚ)) i0 ds2) =
    .ok (⟨List.replicate S ((done0 ++ doneRow SPSc i0 ds2) ++
          List.replicate (SPSc * CHUNKc - SPSc * (Δ2 + ds2.sum))
            (none : Tag)),
        SPSc * (Δ2 + ds2.sum), ts0 + (CHUNKc : ℚ), none, false,
        ((midSecs (ts0 + (CHUNKc : ℚ)) : ℤ) : ℚ), ts0, SPSc * CHUNKc⟩,
      [], .chunkStop) := by
  rcases ds2 with _ | ⟨d2, ds2t⟩
  · exact absurd rfl hne
  have hQ : (SPSc : ℚ) ≠ 0 := by positivity
  have hdivC : ((SPSc * CHUNKc : ℕ) : ℚ) / (SPSc : ℚ) = (CHUNKc : ℚ) := by
    push_cast
    exact mul_div_cancel_left₀ _ hQ
  have hdivD : ((SPSc * Δ2 : ℕ) : ℚ) / (SPSc : ℚ) = (Δ2 : ℚ) := by
    push_cast
    exact mul_div_cancel_left₀ _ hQ
  have hd2 : 1 ≤ d2 := hpos d2 (by simp)
  have hdn : Δ2 + d2 ≤ Δ2 + (d2 :: ds2t).sum := by
    simp only [List.sum_cons]
    omega
  have hdayq : (Δ2 : ℚ) + (d2 : ℚ) ≤
      ((midSecs (ts0 + (CHUNKc : ℚ)) : ℤ) : ℚ) := by
    calc (Δ2 : ℚ) + (d2 : ℚ) = ((Δ2 + d2 : ℕ) : ℚ) := by push_cast; ring
      _ ≤ ((Δ2 + (d2 :: ds2t).sum : ℕ) : ℚ) := by exact_mod_cast hdn
      _ ≤ _ := hday
  have hfitq : (Δ2 : ℚ) + (d2 : ℚ) ≤ (CHUNKc : ℚ) := by
    calc (Δ2 : ℚ) + (d2 : ℚ) = ((Δ2 + d2 : ℕ) : ℚ) := by push_cast; ring
      _ ≤ ((Δ2 + (d2 :: ds2t).sum : ℕ) : ℚ) := by exact_mod_cast hdn
      _ ≤ ((CHUNKc : ℕ) : ℚ) := by exact_mod_cast hfit
  have hwdata2 : width (List.replicate S (segRow SPSc i0 d2)) =
      SPSc * d2 := by
    rw [width_replicate S (by omega), segRow_length]
  have hwq2 : ((SPSc * d2 : ℕ) : ℚ) / (SPSc : ℚ) = (d2 : ℚ) := by
    push_cast
    exact mul_div_cancel_left₀ _ hQ
  have hslice2 : sliceCols 0 (width (List.replicate S (segRow SPSc i0 d2)))
      (List.replicate S (segRow SPSc i0 d2)) =
      List.replicate S (segRow SPSc i0 d2) := by
    refine sliceCols_zero_full _ _ (fun r hr => ?_)
    rw [List.eq_of_mem_replicate hr, segRow_length, hwdata2]
  have hzero : (ts0 + (CHUNKc : ℚ)) + ((SPSc * Δ2 : ℕ) : ℚ) / (SPSc : ℚ) -
      (ts0 + ((CHUNKc + Δ2 : ℕ) : ℚ)) = 0 := by
    rw [hdivD]
    push_cast
    ring
  have hopen2 : (if ((⟨allocateEmpty S (SPSc * CHUNKc) (none : Tag), 0, ts0,
        some (List.replicate S done0), true, stale1, ts0,
        SPSc * CHUNKc⟩ : EngState Tag)).newChunk then
      openNewChunk SPSc (ts0 + ((CHUNKc + Δ2 : ℕ) : ℚ))
        (⟨allocateEmpty S (SPSc * CHUNKc) (none : Tag), 0, ts0,
          some (List.replicate S done0), true, stale1, ts0,
          SPSc * CHUNKc⟩ : EngState Tag)
      else (⟨allocateEmpty S (SPSc * CHUNKc) (none : Tag), 0, ts0,
        some (List.replicate S done0), true, stale1, ts0,
        SPSc * CHUNKc⟩ : EngState Tag)) =
      (⟨List.replicate S (done0 ++
          List.replicate (SPSc * CHUNKc - SPSc * Δ2) (none : Tag)),
        SPSc * Δ2, ts0 + (CHUNKc : ℚ), none, false,
        ((midSecs (ts0 + (CHUNKc : ℚ)) : ℤ) : ℚ), ts0, SPSc * CHUNKc⟩ :
          EngState Tag) := by
    have hnc : ((⟨allocateEmpty S (SPSc * CHUNKc) (none : Tag), 0, ts0,
        some (List.replicate S done0), true, stale1, ts0,
        SPSc * CHUNKc⟩ : EngState Tag)).newChunk = true := rfl
    have hfrac : (ts0 + ((CHUNKc + Δ2 : ℕ) : ℚ)) -
        ⌊ts0 + ((CHUNKc + Δ2 : ℕ) : ℚ)⌋ =
        ts0 + ((SPSc * CHUNKc : ℕ) : ℚ) / (SPSc : ℚ) -
          ⌊ts0 + ((SPSc * CHUNKc : ℕ) : ℚ) / (SPSc : ℚ)⌋ := by
      rw [hdivC, frac_add_nat ts0 (CHUNKc + Δ2), frac_add_nat ts0 CHUNKc]
    rw [if_pos hnc, openNewChunk_with_carry SPSc
      (ts0 + ((CHUNKc + Δ2 : ℕ) : ℚ)) _ (List.replicate S done0) rfl hfrac]
    show (⟨assignCols 0 (List.replicate S done0)
        (allocateEmpty S (SPSc * CHUNKc) (none : Tag)),
      width (List.replicate S done0),
      ts0 + ((SPSc * CHUNKc : ℕ) : ℚ) / (SPSc : ℚ), none, false,
      ((midSecs (ts0 + ((SPSc * CHUNKc : ℕ) : ℚ) / (SPSc : ℚ)) : ℤ) : ℚ),
      ts0, SPSc * CHUNKc⟩ : EngState Tag) = _
    rw [hdivC]
    rw [show allocateEmpty S (SPSc * CHUNKc) (none : Tag) =
      List.replicate S (List.replicate (SPSc * CHUNKc) (none : Tag))
      from rfl]
    rw [assignCols_replicate, List.take_zero, List.nil_append,
      width_replicate S (by omega), hdone0, Nat.zero_add,
      List.drop_replicate]
  have hget := getNext_abutting_any S SPSc (ts0 + ((CHUNKc + Δ2 : ℕ) : ℚ))
    i0 d2 ds2t
  have hstep2 := fillLoop_interior_append SPSc CHUNKc f
    (⟨allocateEmpty S (SPSc * CHUNKc) (none : Tag), 0, ts0,
      some (List.replicate S done0), true, stale1, ts0,
      SPSc * CHUNKc⟩ : EngState Tag)
    (⟨List.replicate S (done0 ++
        List.replicate (SPSc * CHUNKc - SPSc * Δ2) (none : Tag)),
      SPSc * Δ2, ts0 + (CHUNKc : ℚ), none, false,
      ((midSecs (ts0 + (CHUNKc : ℚ)) : ℤ) : ℚ), ts0, SPSc * CHUNKc⟩ :
        EngState Tag)
    ⟨ts0 + ((CHUNKc + Δ2 : ℕ) : ℚ), (d2 : ℚ),
      List.replicate S (segRow SPSc i0 d2)⟩
    ⟨ts0 + ((CHUNKc + Δ2 : ℕ) : ℚ), (d2 : ℚ),
      List.replicate S (segRow SPSc i0 d2)⟩
    (tagPkts S SPSc (ts0 + ((CHUNKc + Δ2 : ℕ) : ℚ) + (d2 : ℚ)) (i0 + 1)
      ds2t)
    ds2t.isEmpty
    hget
    (by
      show (List.replicate S (segRow SPSc i0 d2)).length =
        (allocateEmpty S (SPSc * CHUNKc) (none : Tag)).length
      rw [List.length_replicate, allocateEmpty, List.length_replicate])
    (by
      show ¬ ((ts0 + ((CHUNKc + Δ2 : ℕ) : ℚ)) ≤
        (pyInt (ts0 + ((0 : ℕ) : ℚ) / (SPSc : ℚ) - (d2 : ℚ)) : ℚ))
      push_neg
      have hx : ts0 + ((0 : ℕ) : ℚ) / (SPSc : ℚ) - (d2 : ℚ) =
          ts0 - (d2 : ℚ) := by push_cast; ring
      rw [hx]
      calc (pyInt (ts0 - (d2 : ℚ)) : ℚ) < ts0 :=
            pyInt_sub_lt ts0 (d2 : ℚ) (by exact_mod_cast hd2)
        _ ≤ ts0 + ((CHUNKc + Δ2 : ℕ) : ℚ) := by
            have hx2 : (0 : ℚ) ≤ ((CHUNKc + Δ2 : ℕ) : ℚ) := by positivity
            linarith)
    hopen2
    (by
      show roundHE ((ts0 + (CHUNKc : ℚ)) +
        ((SPSc * Δ2 : ℕ) : ℚ) / (SPSc : ℚ) -
        (ts0 + ((CHUNKc + Δ2 : ℕ) : ℚ))) < 1
      rw [hzero, roundHE_zero]
      norm_num)
    (by
      show ¬ ((roundHE (((midSecs (ts0 + (CHUNKc : ℚ)) : ℤ) : ℚ) -
        ((SPSc * Δ2 : ℕ) : ℚ) / (SPSc : ℚ)) : ℚ) <
        (width (List.replicate S (segRow SPSc i0 d2)) : ℚ) / (SPSc : ℚ))
      push_neg
      rw [hwdata2, hwq2, hdivD]
      have hx : ((midSecs (ts0 + (CHUNKc : ℚ)) : ℤ) : ℚ) - (Δ2 : ℚ) =
          ((midSecs (ts0 + (CHUNKc : ℚ)) - (Δ2 : ℤ) : ℤ) : ℚ) := by
        push_cast; ring
      rw [hx, roundHE_intCast]
      push_cast
      linarith [hdayq])
    (by
      show ¬ ((CHUNKc : ℚ) - ((0 : ℕ) : ℚ) / (SPSc : ℚ) <
        (width (List.replicate S (segRow SPSc i0 d2)) : ℚ) / (SPSc : ℚ))
      push_neg
      rw [hwdata2, hwq2]
      have hx : (CHUNKc : ℚ) - ((0 : ℕ) : ℚ) / (SPSc : ℚ) =
          (CHUNKc : ℚ) := by push_cast; ring
      rw [hx]
      linarith [hfitq])
    (by
      unfold timeInconsistency
      have hx : (ts0 + (CHUNKc : ℚ)) + ((SPSc * Δ2 : ℕ) : ℚ) / (SPSc : ℚ) -
          ((ts0 + ((CHUNKc + Δ2 : ℕ) : ℚ)) + ((0 : ℤ) : ℚ) / (SPSc : ℚ)) =
          0 := by
        rw [hdivD]; push_cast; ring
      rw [hx]
      unfold roundTo1
      rw [mul_zero, roundHE_zero]
      norm_num)
  have hstate2 : ({ (⟨List.replicate S (done0 ++
        List.replicate (SPSc * CHUNKc - SPSc * Δ2) (none : Tag)),
      SPSc * Δ2, ts0 + (CHUNKc : ℚ), none, false,
      ((midSecs (ts0 + (CHUNKc : ℚ)) : ℤ) : ℚ), ts0, SPSc * CHUNKc⟩ :
        EngState Tag) with
      chunkData := assignCols (SPSc * Δ2)
        (sliceCols 0 (width (List.replicate S (segRow SPSc i0 d2)))
          (List.replicate S (segRow SPSc i0 d2)))
        ((⟨List.replicate S (done0 ++
            List.replicate (SPSc * CHUNKc - SPSc * Δ2) (none : Tag)),
          SPSc * Δ2, ts0 + (CHUNKc : ℚ), none, false,
          ((midSecs (ts0 + (CHUNKc : ℚ)) : ℤ) : ℚ), ts0, SPSc * CHUNKc⟩ :
            EngState Tag)).chunkData,
      offset := SPSc * Δ2 +
        width (List.replicate S (segRow SPSc i0 d2)) } : EngState Tag) =
      (⟨List.replicate S ((done0 ++ segRow SPSc i0 d2) ++
          List.replicate (SPSc * CHUNKc - SPSc * (Δ2 + d2)) (none : Tag)),
        SPSc * (Δ2 + d2), ts0 + (CHUNKc : ℚ), none, false,
        ((midSecs (ts0 + (CHUNKc : ℚ)) : ℤ) : ℚ), ts0, SPSc * CHUNKc⟩ :
          EngState Tag) := by
    show (⟨assignCols (SPSc * Δ2)
        (sliceCols 0 (width (List.replicate S (segRow SPSc i0 d2)))
          (List.replicate S (segRow SPSc i0 d2)))
        (List.replicate S (done0 ++
          List.replicate (SPSc * CHUNKc - SPSc * Δ2) (none : Tag))),
      SPSc * Δ2 + width (List.replicate S (segRow SPSc i0 d2)),
      ts0 + (CHUNKc : ℚ), none, false,
      ((midSecs (ts0 + (CHUNKc : ℚ)) : ℤ) : ℚ), ts0, SPSc * CHUNKc⟩ :
        EngState Tag) = _
    rw [hslice2, hwdata2, assignCols_replicate]
    rw [invRow_step (SPSc * Δ2) (SPSc * CHUNKc) done0 (segRow SPSc i0 d2)
      hdone0]
    rw [segRow_length]
    rw [show SPSc * Δ2 + SPSc * d2 = SPSc * (Δ2 + d2) from
      (Nat.mul_add SPSc Δ2 d2).symm]
  rw [show tagPkts S SPSc (ts0 + ((CHUNKc + Δ2 : ℕ) : ℚ)) i0 (d2 :: ds2t) =
    ⟨ts0 + ((CHUNKc + Δ2 : ℕ) : ℚ), (d2 : ℚ),
        List.replicate S (segRow SPSc i0 d2)⟩ ::
      tagPkts S SPSc (ts0 + ((CHUNKc + Δ2 : ℕ) : ℚ) + (d2 : ℚ)) (i0 + 1)
        ds2t from rfl]
  rcases ds2t with _ | ⟨d3, ds2tt⟩
  · simp only [List.isEmpty_nil, if_true] at hstep2
    rw [hstate2] at hstep2
    rw [hstep2]
    rw [show tagPkts S SPSc (ts0 + ((CHUNKc + Δ2 : ℕ) : ℚ) + (d2 : ℚ))
      (i0 + 1) ([] : List ℕ) = [] from rfl]
    rw [show ([d2] : List ℕ).sum = d2 from rfl]
    rw [show doneRow SPSc i0 [d2] = segRow SPSc i0 d2 ++ ([] : List Tag)
      from rfl, List.append_nil]
  · rw [if_neg (by simp), hstate2] at hstep2
    rw [hstep2]
    rw [show ts0 + ((CHUNKc + Δ2 : ℕ) : ℚ) + (d2 : ℚ) =
      (ts0 + (CHUNKc : ℚ)) + ((Δ2 + d2 : ℕ) : ℚ) from by push_cast; ring]
    have ih := fillLoop_abutting SPSc CHUNKc S hsps hS (ts0 + (CHUNKc : ℚ))
      ts0 (SPSc * CHUNKc) (d3 :: ds2tt) f (i0 + 1) (Δ2 + d2)
      (done0 ++ segRow SPSc i0 d2)
      (by simp)
      (fun x hx => hpos x (by simp [hx]))
      (by rw [List.length_append, hdone0, segRow_length, Nat.mul_add])
      (by
        have hsum : (Δ2 + d2) + (d3 :: ds2tt).sum =
            Δ2 + (d2 :: d3 :: ds2tt).sum := by
          simp only [List.sum_cons]
          omega
        rw [hsum]
        exact hfit)
      (by
        have hsum : (Δ2 + d2) + (d3 :: ds2tt).sum =
            Δ2 + (d2 :: d3 :: ds2tt).sum := by
          simp only [List.sum_cons]
          omega
        rw [hsum]
        exact hday)
      (by simp only [List.length_cons] at hf ⊢; omega)
    rw [ih]
    have e1 : (done0 ++ segRow SPSc i0 d2) ++ doneRow SPSc (i0 + 1)
        (d3 :: ds2tt) = done0 ++ doneRow SPSc i0 (d2 :: d3 :: ds2tt) := by
      rw [List.append_assoc]
      rfl
    have e2 : (Δ2 + d2) + (d3 :: ds2tt).sum =
        Δ2 + (d2 :: d3 :: ds2tt).sum := by
      simp only [List.sum_cons]
      omega
    rw [e1, e2]

/-- The fill loop from a fresh start on abutting whole-second packets
whose prefix fits one chunk while a later packet straddles the chunk end:
the first iteration opens the chunk at the first packet's timestamp, the
prefix fills it in order, and the straddling packet is split at the chunk
boundary with its overflow carried. -/
theorem fillLoop_fresh_split (SPSc CHUNKc S : ℕ) (hsps : 0 < SPSc)
    (hS : 0 < S) (ts0 : ℚ) (hts0 : 0 < ts0)
    (ds1 : List ℕ) (dm : ℕ) (rest2 : List ℕ) (f : ℕ)
    (hpos1 : ∀ d ∈ ds1, 1 ≤ d) (hdm : 1 ≤ dm) (hne : ds1 ≠ [])
    (hfit1 : ds1.sum ≤ CHUNKc) (hstrad : CHUNKc < ds1.sum + dm)
    (hday1 : ((ds1.sum + dm : ℕ) : ℚ) ≤ ((midSecs ts0 : ℤ) : ℚ))
    (hf : ds1.length + 1 ≤ f) :
    fillLoop SPSc CHUNKc (f + 1) (freshEng SPSc CHUNKc S (none : Tag))
      (tagPkts S SPSc ts0 0 (ds1 ++ dm :: rest2)) =
    .ok (⟨List.replicate S (doneRow SPSc 0 ds1 ++
          (segRow SPSc ds1.length dm).take
            (SPSc * CHUNKc - SPSc * ds1.sum)),
        SPSc * CHUNKc, ts0,
        some (List.replicate S ((segRow SPSc ds1.length dm).drop
          (SPSc * CHUNKc - SPSc * ds1.sum))),
        false, ((midSecs ts0 : ℤ) : ℚ), 0, 0⟩,
      tagPkts S SPSc (ts0 + ((ds1.sum + dm : ℕ) : ℚ)) (ds1.length + 1)
        rest2,
      .chunkStop) := by
  rcases ds1 with _ | ⟨d0, ds1t⟩
  · exact absurd rfl hne
  have hQ : (SPSc : ℚ) ≠ 0 := by positivity
  have hd0 : 1 ≤ d0 := hpos1 d0 (by simp)
  have hd0n : d0 ≤ (d0 :: ds1t).sum := by
    simp only [List.sum_cons]
    omega
  have hd0day : ((d0 : ℕ) : ℚ) ≤ ((midSecs ts0 : ℤ) : ℚ) := by
    calc ((d0 : ℕ) : ℚ) ≤ (((d0 :: ds1t).sum + dm : ℕ) : ℚ) := by
          exact_mod_cast le_trans hd0n (Nat.le_add_right _ _)
      _ ≤ _ := hday1
  have hd0fit : ((d0 : ℕ) : ℚ) ≤ (CHUNKc : ℚ) := by
    have h1 : d0 ≤ CHUNKc := le_trans hd0n hfit1
    exact_mod_cast h1
  have hwdata : width (List.replicate S (segRow SPSc 0 d0)) = SPSc * d0 := by
    rw [width_replicate S (by omega), segRow_length]
  have hwq : ((SPSc * d0 : ℕ) : ℚ) / (SPSc : ℚ) = (d0 : ℚ) := by
    push_cast
    exact mul_div_cancel_left₀ _ hQ
  have hslice : sliceCols 0 (width (List.replicate S (segRow SPSc 0 d0)))
      (List.replicate S (segRow SPSc 0 d0)) =
      List.replicate S (segRow SPSc 0 d0) := by
    refine sliceCols_zero_full _ _ (fun r hr => ?_)
    rw [List.eq_of_mem_replicate hr, segRow_length, hwdata]
  have hopen : (if (freshEng SPSc CHUNKc S (none : Tag)).newChunk then
      openNewChunk SPSc ts0 (freshEng SPSc CHUNKc S (none : Tag))
      else freshEng SPSc CHUNKc S (none : Tag)) =
      (⟨allocateEmpty S (SPSc * CHUNKc) (none : Tag), 0, ts0, none, false,
        ((midSecs ts0 : ℤ) : ℚ), 0, 0⟩ : EngState Tag) := by
    have hnc : (freshEng SPSc CHUNKc S (none : Tag)).newChunk = true := rfl
    rw [if_pos hnc, openNewChunk_no_carry SPSc ts0 _ rfl]
    rfl
  have hget := getNext_abutting_any S SPSc ts0 0 d0 (ds1t ++ dm :: rest2)
  have hstep := fillLoop_interior_append SPSc CHUNKc f
    (freshEng SPSc CHUNKc S (none : Tag))
    (⟨allocateEmpty S (SPSc * CHUNKc) (none : Tag), 0, ts0, none, false,
      ((midSecs ts0 : ℤ) : ℚ), 0, 0⟩ : EngState Tag)
    ⟨ts0, (d0 : ℚ), List.replicate S (segRow SPSc 0 d0)⟩
    ⟨ts0, (d0 : ℚ), List.replicate S (segRow SPSc 0 d0)⟩
    (tagPkts S SPSc (ts0 + (d0 : ℚ)) 1 (ds1t ++ dm :: rest2))
    (ds1t ++ dm :: rest2).isEmpty
    hget
    (by
      show (List.replicate S (segRow SPSc 0 d0)).length =
        (allocateEmpty S (SPSc * CHUNKc) (none : Tag)).length
      rw [List.length_replicate, allocateEmpty, List.length_replicate])
    (by
      show ¬ (ts0 ≤ (pyInt ((0 : ℚ) + ((0 : ℕ) : ℚ) / (SPSc : ℚ) -
        (d0 : ℚ)) : ℚ))
      push_neg
      have h0 : (0 : ℚ) + ((0 : ℕ) : ℚ) / (SPSc : ℚ) - (d0 : ℚ) =
          -(d0 : ℚ) := by push_cast; ring
      rw [h0]
      calc (pyInt (-(d0 : ℚ)) : ℚ) ≤ 0 :=
            pyInt_neg_nonpos (d0 : ℚ) (by positivity)
        _ < ts0 := hts0
    )
    hopen
    (by
      show roundHE (ts0 + ((0 : ℕ) : ℚ) / (SPSc : ℚ) - ts0) < 1
      have h0 : ts0 + ((0 : ℕ) : ℚ) / (SPSc : ℚ) - ts0 = 0 := by
        push_cast; ring
      rw [h0, roundHE_zero]
      norm_num)
    (by
      show ¬ ((roundHE (((midSecs ts0 : ℤ) : ℚ) -
        ((0 : ℕ) : ℚ) / (SPSc : ℚ)) : ℚ) <
        (width (List.replicate S (segRow SPSc 0 d0)) : ℚ) / (SPSc : ℚ))
      push_neg
      rw [hwdata, hwq]
      have h0 : ((midSecs ts0 : ℤ) : ℚ) - ((0 : ℕ) : ℚ) / (SPSc : ℚ) =
          ((midSecs ts0 : ℤ) : ℚ) := by push_cast; ring
      rw [h0, roundHE_intCast]
      exact hd0day)
    (by
      show ¬ ((CHUNKc : ℚ) - ((0 : ℕ) : ℚ) / (SPSc : ℚ) <
        (width (List.replicate S (segRow SPSc 0 d0)) : ℚ) / (SPSc : ℚ))
      push_neg
      rw [hwdata, hwq]
      have h0 : (CHUNKc : ℚ) - ((0 : ℕ) : ℚ) / (SPSc : ℚ) =
          (CHUNKc : ℚ) := by push_cast; ring
      rw [h0]
      exact hd0fit)
    (by
      unfold timeInconsistency
      have h0 : ts0 + ((0 : ℕ) : ℚ) / (SPSc : ℚ) -
          (ts0 + ((0 : ℤ) : ℚ) / (SPSc : ℚ)) = 0 := by push_cast; ring
      rw [h0]
      unfold roundTo1
      rw [mul_zero, roundHE_zero]
      norm_num)
  rw [if_neg (by simp)] at hstep
  have hstate1 : ({ (⟨allocateEmpty S (SPSc * CHUNKc) (none : Tag), 0, ts0,
        none, false, ((midSecs ts0 : ℤ) : ℚ), 0, 0⟩ : EngState Tag) with
      chunkData := assignCols 0
        (sliceCols 0 (width (List.replicate S (segRow SPSc 0 d0)))
          (List.replicate S (segRow SPSc 0 d0)))
        ((⟨allocateEmpty S (SPSc * CHUNKc) (none : Tag), 0, ts0, none,
          false, ((midSecs ts0 : ℤ) : ℚ), 0, 0⟩ : EngState Tag)).chunkData,
      offset := 0 + width (List.replicate S (segRow SPSc 0 d0)) } :
        EngState Tag) =
      (⟨List.replicate S (segRow SPSc 0 d0 ++
          List.replicate (SPSc * CHUNKc - SPSc * d0) (none : Tag)),
        SPSc * d0, ts0, none, false, ((midSecs ts0 : ℤ) : ℚ), 0, 0⟩ :
          EngState Tag) := by
    show (⟨assignCols 0
        (sliceCols 0 (width (List.replicate S (segRow SPSc 0 d0)))
          (List.replicate S (segRow SPSc 0 d0)))
        (List.replicate S (List.replicate (SPSc * CHUNKc) (none : Tag))),
        0 + width (List.replicate S (segRow SPSc 0 d0)), ts0, none, false,
        ((midSecs ts0 : ℤ) : ℚ), 0, 0⟩ : EngState Tag) = _
    rw [hslice, hwdata, assignCols_replicate, List.take_zero,
      List.nil_append, segRow_length, Nat.zero_add, List.drop_replicate]
  rw [show tagPkts S SPSc ts0 0 ((d0 :: ds1t) ++ dm :: rest2) =
    ⟨ts0, (d0 : ℚ), List.replicate S (segRow SPSc 0 d0)⟩ ::
      tagPkts S SPSc (ts0 + (d0 : ℚ)) 1 (ds1t ++ dm :: rest2) from rfl]
  rw [hstep, hstate1]
  have hsplit := fillLoop_abutting_split SPSc CHUNKc S hsps hS ts0 0 0 dm hdm
    ds1t f 1 d0 (segRow SPSc 0 d0) rest2
    (fun x hx => hpos1 x (by simp [hx]))
    (segRow_length SPSc 0 d0)
    (by
      have hsum : d0 + ds1t.sum = (d0 :: ds1t).sum := by
        simp only [List.sum_cons]
      rw [hsum]
      exact hfit1)
    (by
      have hsum : d0 + ds1t.sum + dm = (d0 :: ds1t).sum + dm := by
        simp only [List.sum_cons]
      rw [hsum]
      exact hstrad)
    (by
      have hsum : d0 + ds1t.sum + dm = (d0 :: ds1t).sum + dm := by
        simp only [List.sum_cons]
      rw [hsum]
      exact hday1)
    (by simp only [List.length_cons] at hf ⊢; omega)
  rw [hsplit]
  rw [show (1 : ℕ) + ds1t.length = (d0 :: ds1t).length from by
    simp only [List.length_cons]; omega]
  rw [show d0 + ds1t.sum = (d0 :: ds1t).sum from by
    simp only [List.sum_cons]]
  rw [show segRow SPSc 0 d0 ++ doneRow SPSc 1 ds1t =
    doneRow SPSc 0 (d0 :: ds1t) from rfl]
  rw [show ts0 + (d0 : ℚ) + ((ds1t.sum + dm : ℕ) : ℚ) =
    ts0 + (((d0 :: ds1t).sum + dm : ℕ) : ℚ) from by
    push_cast [List.sum_cons]; ring]

theorem concatLoop_step (SPSc CHUNKc S : ℕ) (z : α) (fuel : ℕ)
    (st st2 : EngState α) (p : Pkt α) (ps rest : List (Pkt α))
    (evs : List (Event α)) (ex : FillExit)
    (hrun : fillLoop SPSc CHUNKc (fuel + 1) st (p :: ps) =
      .ok (st2, rest, ex)) :
    concatLoop SPSc CHUNKc S z (fuel + 1) st (p :: ps) evs =
      concatLoop SPSc CHUNKc S z fuel (afterSave SPSc CHUNKc S z st2) rest
        (evs ++ saveChunkEvents st2) := by
  simp only [concatLoop]
  rw [hrun]

theorem concatLoop_done (SPSc CHUNKc S : ℕ) (z : α) (fuel : ℕ)
    (st : EngState α) (evs : List (Event α)) :
    concatLoop SPSc CHUNKc S z (fuel + 1) st [] evs = .ok evs := rfl

/-- The complete engine run on a fresh start with abutting whole-second
packets crossing one chunk boundary: two chunks are emitted, the first
closed exactly at SPS x CHUNK_SIZE columns with the straddling packet's
overflow saved as the carry, the second re-opened at
previous_chunk_time + previous_cursor / SPS with the carry at column 0 and
flushed partially filled at exhaustion. -/
theorem c1TwoChunkRun (SPSc CHUNKc S : ℕ) (ts0 : ℚ)
    (ds1 : List ℕ) (dm : ℕ) (ds2p : List ℕ)
    (hsps : 0 < SPSc) (hS : 0 < S) (hts0 : 0 < ts0)
    (hds1 : ds1 ≠ []) (hds2 : ds2p ≠ [])
    (hpos1 : ∀ d ∈ ds1, 1 ≤ d) (hdm : 1 ≤ dm) (hpos2 : ∀ d ∈ ds2p, 1 ≤ d)
    (hfit1 : ds1.sum ≤ CHUNKc) (hstrad : CHUNKc < ds1.sum + dm)
    (hfit2 : ds1.sum + dm - CHUNKc + ds2p.sum ≤ CHUNKc)
    (hday1 : ((ds1.sum + dm : ℕ) : ℚ) ≤ ((midSecs ts0 : ℤ) : ℚ))
    (hday2 : ((ds1.sum + dm - CHUNKc + ds2p.sum : ℕ) : ℚ) ≤
      ((midSecs (ts0 + (CHUNKc : ℚ)) : ℤ) : ℚ)) :
    concatFiles SPSc CHUNKc S (none : Tag) (ds1.length + ds2p.length + 3)
        none none (fun _ => none)
        (tagPkts S SPSc ts0 0 (ds1 ++ dm :: ds2p)) =
      .ok [.sink ts0 (List.replicate S (doneRow SPSc 0 ds1 ++
            (segRow SPSc ds1.length dm).take
              (SPSc * CHUNKc - SPSc * ds1.sum))),
        .checkpoint ts0 (SPSc * CHUNKc),
        .carrySave (List.replicate S ((segRow SPSc ds1.length dm).drop
          (SPSc * CHUNKc - SPSc * ds1.sum))),
        .sink (ts0 + (CHUNKc : ℚ))
          (List.replicate S ((segRow SPSc ds1.length dm).drop
              (SPSc * CHUNKc - SPSc * ds1.sum) ++
            doneRow SPSc (ds1.length + 1) ds2p)),
        .checkpoint (ts0 + (CHUNKc : ℚ))
          (SPSc * (ds1.sum + dm - CHUNKc + ds2p.sum))] := by
  rcases ds1 with _ | ⟨d0, ds1t⟩
  · exact absurd rfl hds1
  rcases ds2p with _ | ⟨d2, ds2t⟩
  · exact absurd rfl hds2
  obtain ⟨hlenR1row, hlenR2row0, _, _, _⟩ :=
    c1SplitProps SPSc CHUNKc (d0 :: ds1t) dm (d2 :: ds2t) hsps hfit1 hstrad
  have hA2 : SPSc * (d0 :: ds1t).sum ≤ SPSc * CHUNKc :=
    Nat.mul_le_mul_left SPSc hfit1
  have hAB2 : SPSc * (d0 :: ds1t).sum + SPSc * dm =
      SPSc * CHUNKc + SPSc * ((d0 :: ds1t).sum + dm - CHUNKc) := by
    have hu : (d0 :: ds1t).sum + dm =
        CHUNKc + ((d0 :: ds1t).sum + dm - CHUNKc) := by omega
    calc SPSc * (d0 :: ds1t).sum + SPSc * dm =
        SPSc * ((d0 :: ds1t).sum + dm) :=
          (Nat.mul_add SPSc (d0 :: ds1t).sum dm).symm
      _ = SPSc * (CHUNKc + ((d0 :: ds1t).sum + dm - CHUNKc)) := by rw [← hu]
      _ = SPSc * CHUNKc + SPSc * ((d0 :: ds1t).sum + dm - CHUNKc) :=
          Nat.mul_add SPSc CHUNKc ((d0 :: ds1t).sum + dm - CHUNKc)
  have hdone0 : ((segRow SPSc (d0 :: ds1t).length dm).drop
      (SPSc * CHUNKc - SPSc * (d0 :: ds1t).sum)).length =
      SPSc * ((d0 :: ds1t).sum + dm - CHUNKc) := by
    rw [List.length_drop, segRow_length]
    omega
  have hcut1 : sliceCols 0 (SPSc * CHUNKc)
      (List.replicate S (doneRow SPSc 0 (d0 :: ds1t) ++
        (segRow SPSc (d0 :: ds1t).length dm).take
          (SPSc * CHUNKc - SPSc * (d0 :: ds1t).sum))) =
      List.replicate S (doneRow SPSc 0 (d0 :: ds1t) ++
        (segRow SPSc (d0 :: ds1t).length dm).take
          (SPSc * CHUNKc - SPSc * (d0 :: ds1t).sum)) := by
    refine sliceCols_zero_full _ _ (fun r hr => ?_)
    rw [List.eq_of_mem_replicate hr]
    exact le_of_eq hlenR1row
  have hlenR2row : ((segRow SPSc (d0 :: ds1t).length dm).drop
      (SPSc * CHUNKc - SPSc * (d0 :: ds1t).sum) ++
      doneRow SPSc ((d0 :: ds1t).length + 1) (d2 :: ds2t)).length =
      SPSc * ((d0 :: ds1t).sum + dm - CHUNKc + (d2 :: ds2t).sum) := by
    rw [List.length_append, hdone0, doneRow_length,
      Nat.mul_add SPSc ((d0 :: ds1t).sum + dm - CHUNKc) (d2 :: ds2t).sum]
  have hcut2 : sliceCols 0
      (SPSc * ((d0 :: ds1t).sum + dm - CHUNKc + (d2 :: ds2t).sum))
      (List.replicate S (((segRow SPSc (d0 :: ds1t).length dm).drop
          (SPSc * CHUNKc - SPSc * (d0 :: ds1t).sum) ++
        doneRow SPSc ((d0 :: ds1t).length + 1) (d2 :: ds2t)) ++
        List.replicate (SPSc * CHUNKc -
          SPSc * ((d0 :: ds1t).sum + dm - CHUNKc + (d2 :: ds2t).sum))
          (none : Tag))) =
      List.replicate S ((segRow SPSc (d0 :: ds1t).length dm).drop
          (SPSc * CHUNKc - SPSc * (d0 :: ds1t).sum) ++
        doneRow SPSc ((d0 :: ds1t).length + 1) (d2 :: ds2t)) := by
    rw [sliceCols_zero_replicate, ← hlenR2row, List.take_left]
  have hrun1 := fillLoop_fresh_split SPSc CHUNKc S hsps hS ts0 hts0
    (d0 :: ds1t) dm (d2 :: ds2t)
    ((d0 :: ds1t).length + (d2 :: ds2t).length + 2)
    hpos1 hdm (by simp) hfit1 hstrad hday1 (by omega)
  simp only [freshEng] at hrun1
  have hrun2 := fillLoop_carry_resume SPSc CHUNKc S hsps hS ts0 hts0
    ((midSecs ts0 : ℤ) : ℚ) ((d0 :: ds1t).sum + dm - CHUNKc)
    ((segRow SPSc (d0 :: ds1t).length dm).drop
      (SPSc * CHUNKc - SPSc * (d0 :: ds1t).sum))
    hdone0 (d2 :: ds2t) ((d0 :: ds1t).length + (d2 :: ds2t).length + 1)
    ((d0 :: ds1t).length + 1)
    hpos2 (by simp) hfit2 hday2 (by omega)
  rw [show tagPkts S SPSc ts0 0 ((d0 :: ds1t) ++ dm :: d2 :: ds2t) =
    ⟨ts0, (d0 : ℚ), List.replicate S (segRow SPSc 0 d0)⟩ ::
      tagPkts S SPSc (ts0 + (d0 : ℚ)) 1 (ds1t ++ dm :: d2 :: ds2t)
    from rfl]
  simp only [concatFiles, startup, getPreviousFileData, Bool.false_eq_true,
    if_false]
  rw [show (d0 :: ds1t).length + (d2 :: ds2t).length + 3 =
    ((d0 :: ds1t).length + (d2 :: ds2t).length + 2) + 1 from rfl]
  rw [concatLoop_step SPSc CHUNKc S (none : Tag)
    ((d0 :: ds1t).length + (d2 :: ds2t).length + 2) _ _ _ _ _ _ _
    (by
      rw [show (⟨ts0, (d0 : ℚ), List.replicate S (segRow SPSc 0 d0)⟩ ::
          tagPkts S SPSc (ts0 + (d0 : ℚ)) 1 (ds1t ++ dm :: d2 :: ds2t) :
            List (Pkt Tag)) =
        tagPkts S SPSc ts0 0 ((d0 :: ds1t) ++ dm :: d2 :: ds2t) from rfl]
      exact hrun1)]
  simp only [afterSave, saveChunkEvents, List.nil_append]
  rw [hcut1]
  rw [show ts0 + (((d0 :: ds1t).sum + dm : ℕ) : ℚ) =
    ts0 + ((CHUNKc + ((d0 :: ds1t).sum + dm - CHUNKc) : ℕ) : ℚ) from by
    rw [show CHUNKc + ((d0 :: ds1t).sum + dm - CHUNKc) =
      (d0 :: ds1t).sum + dm from by omega]]
  rw [show (d0 :: ds1t).length + (d2 :: ds2t).length + 2 =
    ((d0 :: ds1t).length + (d2 :: ds2t).length + 1) + 1 from rfl]
  rw [show tagPkts S SPSc
      (ts0 + ((CHUNKc + ((d0 :: ds1t).sum + dm - CHUNKc) : ℕ) : ℚ))
      ((d0 :: ds1t).length + 1) (d2 :: ds2t) =
    ⟨ts0 + ((CHUNKc + ((d0 :: ds1t).sum + dm - CHUNKc) : ℕ) : ℚ), (d2 : ℚ),
        List.replicate S (segRow SPSc ((d0 :: ds1t).length + 1) d2)⟩ ::
      tagPkts S SPSc
        (ts0 + ((CHUNKc + ((d0 :: ds1t).sum + dm - CHUNKc) : ℕ) : ℚ) +
          (d2 : ℚ))
        ((d0 :: ds1t).length + 1 + 1) ds2t from rfl]
  rw [concatLoop_step SPSc CHUNKc S (none : Tag)
    ((d0 :: ds1t).length + (d2 :: ds2t).length + 1) _ _ _ _ _ _ _ hrun2]
  simp only [afterSave, saveChunkEvents, List.nil_append]
  rw [hcut2]
  rw [show (d0 :: ds1t).length + (d2 :: ds2t).length + 1 =
    ((d0 :: ds1t).length + (d2 :: ds2t).length) + 1 from rfl]
  rw [concatLoop_done]
  simp only [List.cons_append, List.nil_append]

/-- C1: on a run of the full engine over abutting whole-second packets in
which one packet straddles the chunk boundary, two chunks are emitted (each
handed to the sink with its checkpoint, the overflow of the straddling
packet crossing between them through the carry), and every sample of every
packet appears exactly once in exactly one emitted chunk, at the column
SPS * (packet_time - that chunk's chunk_time) + j determined by its
absolute time offset: the forward clause places each sample in the single
chunk selected by its global offset at that column, the two inverse
clauses show a tagged cell determines its packet and column, the final
clause shows no sample appears in both chunks, and the remaining cells of
the open second chunk are exactly the untouched allocation - no sample is
lost and none is written twice. -/
theorem c1_every_sample_exactly_once (SPSc CHUNKc S : ℕ) (ts0 : ℚ)
    (ds1 : List ℕ) (dm : ℕ) (ds2p : List ℕ)
    (hsps : 0 < SPSc) (hS : 0 < S) (hts0 : 0 < ts0)
    (hds1 : ds1 ≠ []) (hds2 : ds2p ≠ [])
    (hpos1 : ∀ d ∈ ds1, 1 ≤ d) (hdm : 1 ≤ dm) (hpos2 : ∀ d ∈ ds2p, 1 ≤ d)
    (hfit1 : ds1.sum ≤ CHUNKc) (hstrad : CHUNKc < ds1.sum + dm)
    (hfit2 : ds1.sum + dm - CHUNKc + ds2p.sum ≤ CHUNKc)
    (hday1 : ((ds1.sum + dm : ℕ) : ℚ) ≤ ((midSecs ts0 : ℤ) : ℚ))
    (hday2 : ((ds1.sum + dm - CHUNKc + ds2p.sum : ℕ) : ℚ) ≤
      ((midSecs (ts0 + (CHUNKc : ℚ)) : ℤ) : ℚ)) :
    startup SPSc CHUNKc S (none : Tag) none none (fun _ => none) =
      .ok (freshEng SPSc CHUNKc S (none : Tag)) ∧
    concatFiles SPSc CHUNKc S (none : Tag) (ds1.length + ds2p.length + 3)
        none none (fun _ => none)
        (tagPkts S SPSc ts0 0 (ds1 ++ dm :: ds2p)) =
      .ok [.sink ts0 (List.replicate S (doneRow SPSc 0 ds1 ++
            (segRow SPSc ds1.length dm).take
              (SPSc * CHUNKc - SPSc * ds1.sum))),
        .checkpoint ts0 (SPSc * CHUNKc),
        .carrySave (List.replicate S ((segRow SPSc ds1.length dm).drop
          (SPSc * CHUNKc - SPSc * ds1.sum))),
        .sink (ts0 + (CHUNKc : ℚ))
          (List.replicate S ((segRow SPSc ds1.length dm).drop
              (SPSc * CHUNKc - SPSc * ds1.sum) ++
            doneRow SPSc (ds1.length + 1) ds2p)),
        .checkpoint (ts0 + (CHUNKc : ℚ))
          (SPSc * (ds1.sum + dm - CHUNKc + ds2p.sum))] ∧
    (∀ k d j, (ds1 ++ dm :: ds2p).get? k = some d → j < SPSc * d →
      (SPSc * ((ds1 ++ dm :: ds2p).take k).sum + j < SPSc * CHUNKc →
        (doneRow SPSc 0 ds1 ++ (segRow SPSc ds1.length dm).take
          (SPSc * CHUNKc - SPSc * ds1.sum)).get?
          (SPSc * ((ds1 ++ dm :: ds2p).take k).sum + j) =
          some (some (k, j))) ∧
      (SPSc * CHUNKc ≤ SPSc * ((ds1 ++ dm :: ds2p).take k).sum + j →
        ((segRow SPSc ds1.length dm).drop (SPSc * CHUNKc - SPSc * ds1.sum) ++
          doneRow SPSc (ds1.length + 1) ds2p).get?
          (SPSc * ((ds1 ++ dm :: ds2p).take k).sum + j - SPSc * CHUNKc) =
          some (some (k, j))) ∧
      ((SPSc * ((ds1 ++ dm :: ds2p).take k).sum + j : ℕ) : ℚ) =
        (SPSc : ℚ) * ((ts0 +
          ((((ds1 ++ dm :: ds2p).take k).sum : ℕ) : ℚ)) - ts0) + (j : ℚ) ∧
      (SPSc * CHUNKc ≤ SPSc * ((ds1 ++ dm :: ds2p).take k).sum + j →
        ((SPSc * ((ds1 ++ dm :: ds2p).take k).sum + j -
            SPSc * CHUNKc : ℕ) : ℚ) =
          (SPSc : ℚ) * ((ts0 +
            ((((ds1 ++ dm :: ds2p).take k).sum : ℕ) : ℚ)) -
            (ts0 + (CHUNKc : ℚ))) + (j : ℚ))) ∧
    (∀ c t j,
      (doneRow SPSc 0 ds1 ++ (segRow SPSc ds1.length dm).take
        (SPSc * CHUNKc - SPSc * ds1.sum)).get? c = some (some (t, j)) →
      ∃ d, (ds1 ++ dm :: ds2p).get? t = some d ∧ j < SPSc * d ∧
        c = SPSc * ((ds1 ++ dm :: ds2p).take t).sum + j) ∧
    (∀ c t j,
      ((segRow SPSc ds1.length dm).drop (SPSc * CHUNKc - SPSc * ds1.sum) ++
        doneRow SPSc (ds1.length + 1) ds2p).get? c = some (some (t, j)) →
      ∃ d, (ds1 ++ dm :: ds2p).get? t = some d ∧ j < SPSc * d ∧
        c + SPSc * CHUNKc = SPSc * ((ds1 ++ dm :: ds2p).take t).sum + j) ∧
    (∀ ca cb t j,
      (doneRow SPSc 0 ds1 ++ (segRow SPSc ds1.length dm).take
        (SPSc * CHUNKc - SPSc * ds1.sum)).get? ca = some (some (t, j)) →
      ((segRow SPSc ds1.length dm).drop (SPSc * CHUNKc - SPSc * ds1.sum) ++
        doneRow SPSc (ds1.length + 1) ds2p).get? cb = some (some (t, j)) →
      False) := by
  obtain ⟨hlen1, hlen2, hfwd, hinv1, hinv2⟩ :=
    c1SplitProps SPSc CHUNKc ds1 dm ds2p hsps hfit1 hstrad
  refine ⟨rfl,
    c1TwoChunkRun SPSc CHUNKc S ts0 ds1 dm ds2p hsps hS hts0 hds1 hds2
      hpos1 hdm hpos2 hfit1 hstrad hfit2 hday1 hday2,
    ?_, hinv1, hinv2, ?_⟩
  · intro k d j hk hj
    obtain ⟨h1, h2⟩ := hfwd k d j hk hj
    refine ⟨h1, h2, ?_, ?_⟩
    · push_cast
      ring
    · intro hge
      rw [Nat.cast_sub hge]
      push_cast
      ring
  · intro ca cb t j hca hcb
    obtain ⟨da, hda, hjda, hcola⟩ := hinv1 ca t j hca
    obtain ⟨db, hdb, hjdb, hcolb⟩ := hinv2 cb t j hcb
    obtain ⟨hb, _⟩ := List.get?_eq_some.1 hca
    rw [hlen1] at hb
    omega

/-- C1 witness: SPS 2, CHUNK_SIZE 3, one space row, packets of 2 s, 2 s
and 1 s at 1700000000.  The second packet straddles the chunk boundary:
chunk 1 closes with its first 2 columns and the other 2 become the carry
opening chunk 2, every placement clause concrete. -/
theorem c1_every_sample_exactly_once_witness :
    startup 2 3 1 (none : Tag) none none (fun _ => none) =
      .ok (freshEng 2 3 1 (none : Tag)) ∧
    concatFiles 2 3 1 (none : Tag)
        (([2] : List ℕ).length + ([1] : List ℕ).length + 3)
        none none (fun _ => none)
        (tagPkts 1 2 1700000000 0 ([2] ++ 2 :: [1])) =
      .ok [.sink 1700000000 (List.replicate 1 (doneRow 2 0 [2] ++
            (segRow 2 ([2] : List ℕ).length 2).take
              (2 * 3 - 2 * ([2] : List ℕ).sum))),
        .checkpoint 1700000000 (2 * 3),
        .carrySave (List.replicate 1 ((segRow 2 ([2] : List ℕ).length 2).drop
          (2 * 3 - 2 * ([2] : List ℕ).sum))),
        .sink ((1700000000 : ℚ) + ((3 : ℕ) : ℚ))
          (List.replicate 1 ((segRow 2 ([2] : List ℕ).length 2).drop
              (2 * 3 - 2 * ([2] : List ℕ).sum) ++
            doneRow 2 (([2] : List ℕ).length + 1) [1])),
        .checkpoint ((1700000000 : ℚ) + ((3 : ℕ) : ℚ))
          (2 * (([2] : List ℕ).sum + 2 - 3 + ([1] : List ℕ).sum))] ∧
    (∀ k d j, ([2] ++ 2 :: [1] : List ℕ).get? k = some d → j < 2 * d →
      (2 * (([2] ++ 2 :: [1] : List ℕ).take k).sum + j < 2 * 3 →
        (doneRow 2 0 [2] ++ (segRow 2 ([2] : List ℕ).length 2).take
          (2 * 3 - 2 * ([2] : List ℕ).sum)).get?
          (2 * (([2] ++ 2 :: [1] : List ℕ).take k).sum + j) =
          some (some (k, j))) ∧
      (2 * 3 ≤ 2 * (([2] ++ 2 :: [1] : List ℕ).take k).sum + j →
        ((segRow 2 ([2] : List ℕ).length 2).drop
            (2 * 3 - 2 * ([2] : List ℕ).sum) ++
          doneRow 2 (([2] : List ℕ).length + 1) [1]).get?
          (2 * (([2] ++ 2 :: [1] : List ℕ).take k).sum + j - 2 * 3) =
          some (some (k, j))) ∧
      ((2 * (([2] ++ 2 :: [1] : List ℕ).take k).sum + j : ℕ) : ℚ) =
        ((2 : ℕ) : ℚ) * (((1700000000 : ℚ) +
          (((([2] ++ 2 :: [1] : List ℕ).take k).sum : ℕ) : ℚ)) -
          1700000000) + (j : ℚ) ∧
      (2 * 3 ≤ 2 * (([2] ++ 2 :: [1] : List ℕ).take k).sum + j →
        ((2 * (([2] ++ 2 :: [1] : List ℕ).take k).sum + j -
            2 * 3 : ℕ) : ℚ) =
          ((2 : ℕ) : ℚ) * (((1700000000 : ℚ) +
            (((([2] ++ 2 :: [1] : List ℕ).take k).sum : ℕ) : ℚ)) -
            ((1700000000 : ℚ) + ((3 : ℕ) : ℚ))) + (j : ℚ))) ∧
    (∀ c t j,
      (doneRow 2 0 [2] ++ (segRow 2 ([2] : List ℕ).length 2).take
        (2 * 3 - 2 * ([2] : List ℕ).sum)).get? c = some (some (t, j)) →
      ∃ d, ([2] ++ 2 :: [1] : List ℕ).get? t = some d ∧ j < 2 * d ∧
        c = 2 * (([2] ++ 2 :: [1] : List ℕ).take t).sum + j) ∧
    (∀ c t j,
      ((segRow 2 ([2] : List ℕ).length 2).drop
          (2 * 3 - 2 * ([2] : List ℕ).sum) ++
        doneRow 2 (([2] : List ℕ).length + 1) [1]).get? c =
        some (some (t, j)) →
      ∃ d, ([2] ++ 2 :: [1] : List ℕ).get? t = some d ∧ j < 2 * d ∧
        c + 2 * 3 = 2 * (([2] ++ 2 :: [1] : List ℕ).take t).sum + j) ∧
    (∀ ca cb t j,
      (doneRow 2 0 [2] ++ (segRow 2 ([2] : List ℕ).length 2).take
        (2 * 3 - 2 * ([2] : List ℕ).sum)).get? ca = some (some (t, j)) →
      ((segRow 2 ([2] : List ℕ).length 2).drop
          (2 * 3 - 2 * ([2] : List ℕ).sum) ++
        doneRow 2 (([2] : List ℕ).length + 1) [1]).get? cb =
        some (some (t, j)) →
      False) :=
  c1_every_sample_exactly_once 2 3 1 1700000000 [2] 2 [1]
    (by norm_num) (by norm_num) (by norm_num) (by simp) (by simp)
    (by decide) (by decide) (by decide) (by decide) (by decide) (by decide)
    (by norm_num [midSecs, List.sum_cons, List.sum_nil])
    (by norm_num [midSecs, List.sum_cons, List.sum_nil])

end DasConcat
